import Mathlib

/-!
Verification of the Noir SSA middle-end against its specification.

This file shallowly embeds the parts of the compiler middle-end that the
claims C1..C10 are about and proves or refutes each claim.

The embedded source files (paths relative to the repository root):
* `compiler/noirc_evaluator/src/ssa/ir/dfg.rs` (`replace_value`, `resolve`)
* `compiler/noirc_evaluator/src/ssa/ir/instruction/cast.rs` (`simplify_cast`)
* `compiler/noirc_evaluator/src/ssa/ir/instruction/insert_result.rs`
* `compiler/noirc_evaluator/src/ssa/ir/map.rs` (`SparseMap`)
* `compiler/noirc_evaluator/src/ssa/opt/resolve_is_unconstrained.rs`
* `compiler/noirc_evaluator/src/ssa/opt/flatten_cfg/value_merger.rs`
* `compiler/noirc_evaluator/src/ssa/opt/remove_bit_shifts.rs`
* `compiler/noirc_evaluator/src/brillig/mod.rs` (global initialization)

Machine integers are modelled as `Nat` with explicit `% 2 ^ w` where wrapping
matters; field elements are `Nat` residues modulo a modulus parameter `p`;
fallible or possibly-diverging code returns `Option`.
-/

namespace NoirSsa

/-! ## The SSA value model

`Value` mirrors the tagged-variant reference type in `ssa/ir/value.rs`.
Numeric constants are deduplicated through a `TwoWayMap` in the Rust code, so
two constant values are equal iff their field element and numeric type agree;
the model therefore stores the field element residue directly instead of its
interned id. -/

/-- Mirrors `NumericType` in `ssa/ir/types.rs`: a native field element, or an
unsigned/signed integer with a bit size. -/
inductive NumericType
  | nativeField
  | unsigned (bitSize : Nat)
  | signed (bitSize : Nat)
deriving DecidableEq, Repr

/-- The intrinsics distinguished by the embedded passes.  Only
`IsUnconstrained` is matched on by the code under study; every other
intrinsic is represented by its index in the Rust enum. -/
inductive Intrinsic
  | isUnconstrained
  | toBits
  | otherIntrinsic (n : Nat)
deriving DecidableEq, Repr

/-- Mirrors `Value` in `ssa/ir/value.rs`. -/
inductive Value
  | instructionRes (instruction : Nat) (position : Nat)
  | param (block : Nat) (position : Nat)
  | numericConstant (constant : Nat) (typ : NumericType)
  | functionRef (id : Nat)
  | intrinsic (i : Intrinsic)
  | foreignFunction (id : Nat)
deriving DecidableEq, Repr

/-! ## The value-replacement map (`dfg.rs`)

The `DataFlowGraph` keeps `replaced_values : HashMap<Value, Value>`.  We model
the hash map as an association list where an inserted binding is consed to the
front, shadowing older bindings for the same key, which gives the same
lookup/overwrite semantics. -/

/-- One forwarding map: newest binding first. -/
abbrev RepMap := List (Value × Value)

/-- Embeds `HashMap::get` on the forwarding map. -/
def lookupRep (m : RepMap) (v : Value) : Option Value :=
  match m with
  | [] => none
  | (k, w) :: rest => if k = v then some w else lookupRep rest v

/-- Embeds `HashMap::insert` on the forwarding map (overwrites by shadowing). -/
def insertRep (m : RepMap) (k w : Value) : RepMap := (k, w) :: m

/-- Fuelled version of `DataFlowGraph::resolve`: follow the forwarding chain.
The Rust code recurses without bound and diverges on a cyclic chain; the model
returns `none` when the fuel runs out. -/
def resolveF (m : RepMap) : Nat → Value → Option Value
  | 0, _ => none
  | fuel + 1, v =>
    match lookupRep m v with
    | none => some v
    | some w => resolveF m fuel w

/-- Embeds `DataFlowGraph::resolve`.  In an acyclic map every chain steps through
distinct keys, so it leaves the key set after at most `m.length` lookups;
fuel `m.length + 1` therefore returns `some` exactly when the Rust recursion
terminates, and `none` exactly when it diverges. -/
def resolveRep (m : RepMap) (v : Value) : Option Value :=
  resolveF m (m.length + 1) v

/-- Embeds `DataFlowGraph::replace_value`: if the two values differ, record
`old -> resolve(new)`.  Returns `none` when the embedded `resolve` call would
diverge. -/
def replaceValue (m : RepMap) (valueToReplace newValue : Value) : Option RepMap :=
  if valueToReplace = newValue then some m
  else (resolveRep m newValue).map fun w => insertRep m valueToReplace w

/-- Runs a sequence of `replace_value` calls starting from the given map. -/
def runReplacements (calls : List (Value × Value)) (m : RepMap) : Option RepMap :=
  match calls with
  | [] => some m
  | (old, new) :: rest =>
    match replaceValue m old new with
    | some m' => runReplacements rest m'
    | none => none

/-- A map on which `resolve` terminates for every key it contains (equivalently,
for every value at all, since values outside the key set resolve to themselves
in one step). -/
def AcyclicRep (m : RepMap) : Prop :=
  ∀ kv ∈ m, (resolveRep m kv.1).isSome

instance (m : RepMap) : Decidable (AcyclicRep m) := by
  unfold AcyclicRep; infer_instance

/-- If a fuelled resolve succeeds, its result has no forwarding entry. -/
theorem lookupRep_eq_none_of_resolveF (m : RepMap) :
    ∀ fuel v w, resolveF m fuel v = some w → lookupRep m w = none := by
  intro fuel
  induction fuel with
  | zero => intro v w h; simp [resolveF] at h
  | succ n ih =>
    intro v w h
    unfold resolveF at h
    cases hl : lookupRep m v with
    | none => rw [hl] at h; cases h; exact hl
    | some u => rw [hl] at h; exact ih u w h

/-- More fuel never changes a successful resolve. -/
theorem resolveF_mono (m : RepMap) :
    ∀ fuel v w, resolveF m fuel v = some w →
      ∀ fuel', fuel ≤ fuel' → resolveF m fuel' v = some w := by
  intro fuel
  induction fuel with
  | zero => intro v w h; simp [resolveF] at h
  | succ n ih =>
    intro v w h fuel' hle
    obtain ⟨f', rfl⟩ : ∃ f', fuel' = f' + 1 := by
      cases fuel' with
      | zero => omega
      | succ k => exact ⟨k, rfl⟩
    unfold resolveF at h ⊢
    cases hl : lookupRep m v with
    | none => rw [hl] at h; exact h
    | some u =>
      rw [hl] at h
      exact ih u w h f' (by omega)

/-- A value that is not a key resolves to itself. -/
theorem resolveRep_of_not_key (m : RepMap) (v : Value) (h : lookupRep m v = none) :
    resolveRep m v = some v := by
  unfold resolveRep resolveF
  rw [h]

/-- Successful resolution is stable: resolving the result again returns it. -/
theorem resolveRep_fixed (m : RepMap) (v w : Value) (h : resolveRep m v = some w) :
    resolveRep m w = some w :=
  resolveRep_of_not_key m w (lookupRep_eq_none_of_resolveF m _ v w h)

/-- On an acyclic map, `resolve` succeeds on every value. -/
theorem resolveRep_isSome_of_acyclic (m : RepMap) (h : AcyclicRep m) (v : Value) :
    (resolveRep m v).isSome := by
  cases hl : lookupRep m v with
  | none => rw [resolveRep_of_not_key m v hl]; rfl
  | some w =>
    have hkey : (v, w) ∈ m := by
      clear h
      induction m with
      | nil => simp [lookupRep] at hl
      | cons kv rest ih =>
        unfold lookupRep at hl
        by_cases hk : kv.1 = v
        · rw [if_pos hk] at hl
          cases hl
          have hkv : kv = (v, kv.2) := by rw [← hk]
          rw [← hkv]
          exact List.mem_cons_self kv rest
        · rw [if_neg hk] at hl
          exact List.mem_cons_of_mem _ (ih hl)
    exact h (v, w) hkey

/-- One `replace_value` step preserves resolvability: inserting `old -> w`
where `w` has no forwarding entry and `w ≠ old` lengthens any terminating
chain by at most one hop. -/
theorem resolveF_isSome_insert (m : RepMap) (old w : Value)
    (hw : lookupRep m w = none) (hne : w ≠ old) :
    ∀ fuel v, (resolveF m fuel v).isSome →
      (resolveF (insertRep m old w) (fuel + 1) v).isSome := by
  intro fuel
  induction fuel with
  | zero => intro v h; simp [resolveF] at h
  | succ f ih =>
    intro v h
    by_cases hv : v = old
    · subst hv
      show (resolveF (insertRep m v w) (f + 2) v).isSome
      have h1 : lookupRep (insertRep m v w) v = some w := by
        simp [insertRep, lookupRep]
      have h2 : lookupRep (insertRep m v w) w = none := by
        simp only [insertRep, lookupRep]
        rw [if_neg (fun hc => hne hc.symm)]
        exact hw
      unfold resolveF
      rw [h1]
      unfold resolveF
      rw [h2]
      rfl
    · unfold resolveF at h ⊢
      have hl : lookupRep (insertRep m old w) v = lookupRep m v := by
        simp only [insertRep, lookupRep]
        rw [if_neg (fun hc => hv hc.symm)]
      rw [hl]
      cases hlv : lookupRep m v with
      | none => rfl
      | some u =>
        rw [hlv] at h
        exact ih u h

/-- Recorded sequences of calls where each call forwards to a value that does
not already resolve back to the replaced value (and whose embedded `resolve`
terminates).  This is the discipline the optimization passes follow. -/
def goodCalls : List (Value × Value) → RepMap → Bool
  | [], _ => true
  | (old, new) :: rest, m =>
    if old = new then goodCalls rest m
    else
      match resolveRep m new with
      | some w => decide (w ≠ old) && goodCalls rest (insertRep m old w)
      | none => false

/-- A self-forwarding entry makes `resolve` diverge on its key. -/
theorem resolveF_none_of_self_loop (m : RepMap) (v : Value)
    (h : lookupRep m v = some v) : ∀ fuel, resolveF m fuel v = none := by
  intro fuel
  induction fuel with
  | zero => rfl
  | succ f ih => unfold resolveF; rw [h]; exact ih

theorem goodCalls_run_acyclic :
    ∀ (calls : List (Value × Value)) (m : RepMap),
      (∀ v, (resolveRep m v).isSome) → goodCalls calls m = true →
      ∀ m', runReplacements calls m = some m' → ∀ v, (resolveRep m' v).isSome := by
  intro calls
  induction calls with
  | nil =>
    intro m hm _ m' hrun v
    unfold runReplacements at hrun
    cases hrun
    exact hm v
  | cons call rest ih =>
    intro m hm hgood m' hrun v
    obtain ⟨old, new⟩ := call
    unfold goodCalls at hgood
    unfold runReplacements replaceValue at hrun
    by_cases he : old = new
    · rw [if_pos he] at hgood hrun
      exact ih m hm hgood m' hrun v
    · rw [if_neg he] at hgood hrun
      cases hres : resolveRep m new with
      | none => rw [hres] at hgood; exact Bool.noConfusion hgood
      | some w =>
        rw [hres] at hgood hrun
        have hrun' : runReplacements rest (insertRep m old w) = some m' := hrun
        have hgood' : (decide (w ≠ old) && goodCalls rest (insertRep m old w)) = true := hgood
        have hne : w ≠ old := of_decide_eq_true (Bool.and_eq_true_iff.mp hgood').1
        have hrest : goodCalls rest (insertRep m old w) = true :=
          (Bool.and_eq_true_iff.mp hgood').2
        have hwnone : lookupRep m w = none :=
          lookupRep_eq_none_of_resolveF m _ new w hres
        have hm' : ∀ u, (resolveRep (insertRep m old w) u).isSome := by
          intro u
          have := resolveF_isSome_insert m old w hwnone hne (m.length + 1) u (hm u)
          unfold resolveRep
          have hlen : (insertRep m old w).length + 1 = m.length + 1 + 1 := by
            simp [insertRep]
          rw [hlen]
          exact this
        exact ih (insertRep m old w) hm' hrest m' hrun' v

/-- C5: For every DataFlowGraph reachable by a sequence of `replace_value`
calls that does not form a cycle (i.e. `resolve` terminates on every value of
the resulting forwarding map), `resolve` is idempotent: `resolve v` is defined
and resolving its result returns the same value. -/
theorem resolve_is_fixed_point (calls : List (Value × Value)) (m : RepMap)
    (hrun : runReplacements calls [] = some m) (hacyc : ∀ v, (resolveRep m v).isSome)
    (v : Value) : ∃ w, resolveRep m v = some w ∧ resolveRep m w = some w := by
  obtain ⟨w, hw⟩ := Option.isSome_iff_exists.mp (hacyc v)
  exact ⟨w, hw, resolveRep_fixed m v w hw⟩

theorem resolve_is_fixed_point_witness :
    runReplacements [(Value.param 0 0, Value.param 1 0)] [] =
        some [(Value.param 0 0, Value.param 1 0)] ∧
      ∃ w, resolveRep [(Value.param 0 0, Value.param 1 0)] (Value.param 0 0) = some w ∧
        resolveRep [(Value.param 0 0, Value.param 1 0)] w = some w :=
  ⟨by decide,
    resolve_is_fixed_point [(Value.param 0 0, Value.param 1 0)]
      [(Value.param 0 0, Value.param 1 0)] (by decide)
      (by
        intro v
        unfold resolveRep resolveF lookupRep
        by_cases h : Value.param 0 0 = v
        · rw [if_pos h]
          simp [resolveF, lookupRep]
        · rw [if_neg h]
          rfl)
      (Value.param 0 0)⟩

/-- C6 counterexample: the guard in `replace_value` only compares the two
arguments directly, so the call sequence `replace_value(p0, p1)` then
`replace_value(p1, p0)` records the self-forwarding entry `p1 -> p1`
(because `resolve(p0) = p1` at the second call), and `resolve(p1)` then never
terminates (the model's fuelled resolve returns `none`). -/
theorem replace_value_self_forwarding :
    runReplacements [(Value.param 0 0, Value.param 1 0),
        (Value.param 1 0, Value.param 0 0)] [] =
      some [(Value.param 1 0, Value.param 1 0), (Value.param 0 0, Value.param 1 0)] ∧
    lookupRep [(Value.param 1 0, Value.param 1 0), (Value.param 0 0, Value.param 1 0)]
      (Value.param 1 0) = some (Value.param 1 0) ∧
    resolveRep [(Value.param 1 0, Value.param 1 0), (Value.param 0 0, Value.param 1 0)]
      (Value.param 1 0) = none := by
  refine ⟨by decide, by decide, ?_⟩
  exact resolveF_none_of_self_loop _ (Value.param 1 0) (by decide) _

/-- C6 (amended): after any sequence of `replace_value(old, new)` calls in
which no call is made with `new` already resolving to `old`, the forwarding
map is acyclic: no value forwards to itself (directly or transitively, since
`resolve` terminates on every value). -/
theorem replace_value_acyclic_of_good (calls : List (Value × Value)) (m : RepMap)
    (hgood : goodCalls calls [] = true) (hrun : runReplacements calls [] = some m) :
    (∀ v, (resolveRep m v).isSome) ∧ ∀ v, lookupRep m v ≠ some v := by
  have hempty : ∀ v, (resolveRep ([] : RepMap) v).isSome := by
    intro v; rfl
  have htotal := goodCalls_run_acyclic calls [] hempty hgood m hrun
  refine ⟨htotal, fun v hself => ?_⟩
  have := htotal v
  unfold resolveRep at this
  rw [resolveF_none_of_self_loop m v hself (m.length + 1)] at this
  simp at this

theorem replace_value_acyclic_of_good_witness :
    goodCalls [(Value.param 0 0, Value.param 1 0)] [] = true ∧
      ((∀ v, (resolveRep [(Value.param 0 0, Value.param 1 0)] v).isSome) ∧
        ∀ v, lookupRep [(Value.param 0 0, Value.param 1 0)] v ≠ some (v)) :=
  ⟨by decide,
    replace_value_acyclic_of_good [(Value.param 0 0, Value.param 1 0)]
      [(Value.param 0 0, Value.param 1 0)] (by decide) (by decide)⟩

/-! ## SparseMap (`ssa/ir/map.rs`)

`SparseMap<T>` wraps a `BTreeMap<Id<T>, T>`.  The tree map is modelled as an
association list with unique keys (insertion removes any previous binding for
its key, matching `BTreeMap::insert`'s overwrite semantics); the stored
elements are modelled as `Nat`.  `len` is the number of bindings. -/

abbrev BTreeM := List (Nat × Nat)

/-- Embeds `BTreeMap::get`. -/
def btLookup (m : BTreeM) (id : Nat) : Option Nat :=
  match m with
  | [] => none
  | (k, el) :: rest => if k = id then some el else btLookup rest id

/-- Embeds `BTreeMap::insert` (overwrites an existing binding for the key). -/
def btInsert (m : BTreeM) (id el : Nat) : BTreeM :=
  (id, el) :: m.filter (fun e => e.1 != id)

/-- Embeds `SparseMap::insert`: the fresh id is the current `storage.len()`. -/
def sparseInsert (m : BTreeM) (element : Nat) : BTreeM × Nat :=
  let id := m.length
  (btInsert m id element, id)

/-- Embeds `SparseMap::remove`: `BTreeMap::remove` drops the binding. -/
def sparseRemove (m : BTreeM) (id : Nat) : BTreeM :=
  m.filter (fun e => e.1 != id)

/-- Embeds `impl Index for SparseMap` panics exactly when the key is absent from the
backing `BTreeMap`. -/
def sparseIndexPanics (m : BTreeM) (id : Nat) : Bool :=
  (btLookup m id).isNone

/-- C8 counterexample: removal does not permanently invalidate an id.  Insert
an element (getting id `0`), remove it, then insert again: because
`SparseMap::insert` allocates ids from the *current* `storage.len()`, the
second insert re-issues id `0`, and indexing with the removed id succeeds
again instead of panicking. -/
theorem sparse_map_removed_id_reissued :
    sparseInsert [] 42 = ([(0, 42)], 0) ∧
    sparseRemove [(0, 42)] 0 = [] ∧
    sparseInsert [] 7 = ([(0, 7)], 0) ∧
    sparseIndexPanics [(0, 7)] 0 = false := by decide

theorem btLookup_none_of_filter (m : BTreeM) (id : Nat) (q : Nat × Nat → Bool)
    (h : btLookup m id = none) : btLookup (m.filter q) id = none := by
  induction m with
  | nil => rfl
  | cons e rest ih =>
    unfold btLookup at h
    by_cases hk : e.1 = id
    · rw [if_pos hk] at h; cases h
    · rw [if_neg hk] at h
      show btLookup (List.filter q (e :: rest)) id = none
      rw [List.filter_cons]
      by_cases hq : q e = true
      · rw [if_pos hq]
        unfold btLookup
        rw [if_neg hk]
        exact ih h
      · rw [if_neg hq]
        exact ih h

theorem btLookup_sparseRemove_self (m : BTreeM) (id : Nat) :
    btLookup (sparseRemove m id) id = none := by
  induction m with
  | nil => rfl
  | cons e rest ih =>
    unfold sparseRemove at ih ⊢
    rw [List.filter_cons]
    by_cases hk : e.1 = id
    · rw [if_neg (by simp [hk])]
      exact ih
    · rw [if_pos (by simp [hk])]
      unfold btLookup
      rw [if_neg hk]
      exact ih

/-- C8 (amended): once `remove(id)` has been called, indexing the map with
`id` panics, and this remains the case under every subsequent sequence of
`remove` operations; a later `insert`, however, may re-issue the same id
(ids are allocated from the current length, which shrinks on removal) and
thereby make it valid again. -/
theorem sparse_map_removed_id_panics (m : BTreeM) (id : Nat) (removes : List Nat) :
    sparseIndexPanics (sparseRemove m id) id = true ∧
    sparseIndexPanics (removes.foldl (fun acc i => sparseRemove acc i) (sparseRemove m id))
      id = true := by
  constructor
  · unfold sparseIndexPanics
    rw [btLookup_sparseRemove_self m id]
    rfl
  · have key : ∀ (rs : List Nat) (acc : BTreeM), btLookup acc id = none →
        btLookup (rs.foldl (fun acc i => sparseRemove acc i) acc) id = none := by
      intro rs
      induction rs with
      | nil => intro acc h; exact h
      | cons r rest ih =>
        intro acc h
        exact ih (sparseRemove acc r) (btLookup_none_of_filter acc id _ h)
    unfold sparseIndexPanics
    rw [key removes (sparseRemove m id) (btLookup_sparseRemove_self m id)]
    rfl

/-! ## InsertInstructionResult and its iterator (`insert_result.rs`) -/

/-- Mirrors `InsertInstructionResult`. -/
inductive InsertInstructionResult
  | results (id : Nat) (resultCount : Nat)
  | simplifiedTo (v : Value)
  | simplifiedToMultiple (vs : List Value)
  | instructionRemoved
deriving DecidableEq, Repr

/-- Mirrors `InsertInstructionResultIter`: the cursor struct. -/
structure InsertInstructionResultIter where
  results : InsertInstructionResult
  index : Nat
deriving DecidableEq, Repr

/-- Embeds `InsertInstructionResult::results`. -/
def iterOfResult (r : InsertInstructionResult) : InsertInstructionResultIter :=
  { results := r, index := 0 }

/-- Embeds `Iterator::next` for `InsertInstructionResultIter`.  The outer `Option` is
`none` exactly when the Rust code panics; `some none` models `next()`
returning `None`; `some (some v)` models yielding `v`.  The arms mirror the
source match: `Results` and `SimplifiedTo` carry index guards,
`SimplifiedToMultiple` indexes `results[self.index]` unguarded (an
out-of-bounds vector index panics), and the final arm returns `None`. -/
def iterNext (it : InsertInstructionResultIter) :
    Option (Option Value × InsertInstructionResultIter) :=
  match it.results with
  | .results id resultCount =>
    if it.index < resultCount then
      some (some (Value.instructionRes id it.index), { it with index := it.index + 1 })
    else some (none, it)
  | .simplifiedTo v =>
    if it.index = 0 then some (some v, { it with index := it.index + 1 })
    else some (none, it)
  | .simplifiedToMultiple vs =>
    match vs[it.index]? with
    | some v => some (some v, { it with index := it.index + 1 })
    | none => none
  | .instructionRemoved => some (none, it)

/-- Embeds `Iterator::size_hint` for `InsertInstructionResultIter`: the source
returns a lower bound of `0` and, as upper bound, the variant's total result
count (ignoring `index`). -/
def iterSizeHint (it : InsertInstructionResultIter) : Nat × Option Nat :=
  let upperBound :=
    match it.results with
    | .results _ resultCount => resultCount
    | .simplifiedTo _ => 1
    | .simplifiedToMultiple vs => vs.length
    | .instructionRemoved => 0
  (0, some upperBound)

/-- C9: `size_hint` is *not* exact.  On the fresh iterator over
`SimplifiedTo(v)` exactly one value is still to be yielded, yet `size_hint`
returns `(0, Some 1)`: the lower bound `0` differs from the upper bound and
from the remaining count `1` (and the iterator even implements
`ExactSizeIterator`, whose contract requires the two bounds to agree). -/
theorem size_hint_not_exact :
    iterSizeHint (iterOfResult (.simplifiedTo (Value.param 0 0))) = (0, some 1) ∧
    iterNext (iterOfResult (.simplifiedTo (Value.param 0 0))) =
      some (some (Value.param 0 0),
        { results := .simplifiedTo (Value.param 0 0), index := 1 }) ∧
    iterNext ⟨.simplifiedTo (Value.param 0 0), 1⟩ =
      some (none, { results := .simplifiedTo (Value.param 0 0), index := 1 }) ∧
    (0 : Nat) ≠ 1 := by decide

/-- C10: the iterator is *not* total.  For `SimplifiedToMultiple`, the `next`
arm indexes `results[self.index]` without an exhaustion guard, so after the
last value has been yielded the following `next()` call panics with an
out-of-bounds index instead of returning `None` (modelled as the outer
`none`); the other three variants do return `None` when exhausted. -/
theorem next_panics_after_exhaustion :
    iterNext (iterOfResult (.simplifiedToMultiple [Value.param 0 0])) =
      some (some (Value.param 0 0),
        { results := .simplifiedToMultiple [Value.param 0 0], index := 1 }) ∧
    iterNext ⟨.simplifiedToMultiple [Value.param 0 0], 1⟩ = none := by decide

/-! ## Cast simplification (`ssa/ir/instruction/cast.rs`) -/

/-- The SSA instruction forms the embedded passes distinguish.  Every other
opcode is represented by its index in the Rust enum; the passes under study
only ever compare such instructions against the distinguished forms. -/
inductive Instruction
  | cast (value : Value) (typ : NumericType)
  | call (func : Value) (arguments : List Value)
  | otherInstruction (n : Nat)
deriving DecidableEq, Repr

/-- The SSA `Type`, restricted to the structure the embedded claims inspect:
numeric types and function types are kept; composite types (array, slice,
reference) are collapsed to an opaque tag because no embedded code path looks
inside them. -/
inductive SsaType
  | numeric (t : NumericType)
  | functionType
  | compositeType (n : Nat)
deriving DecidableEq, Repr

/-- Mirrors `SimplifyResult` in `ssa/ir/instruction.rs`. -/
inductive SimplifyResult
  | simplifiedTo (v : Value)
  | simplifiedToMultiple (vs : List Value)
  | simplifiedToInstruction (i : Instruction)
  | simplifiedToInstructionMultiple (instrs : List Instruction)
  | remove
  | none
deriving DecidableEq, Repr

/-- The slice of the `DataFlowGraph` that `simplify_cast` reads: the
instruction arena, the forwarding map, and the type assignment that
`type_of_value` computes for instruction results and block parameters (its
recursion through `result_type()` is taken as given data; for constants and
callables `type_of_value` is structural and is embedded directly below). -/
structure CastDfg where
  instructions : List (Nat × Instruction)
  replaced : RepMap
  instrResultType : Nat → Nat → SsaType
  paramType : Nat → Nat → SsaType

/-- Embeds `DenseMap` indexing for instructions (`none` models an id the arena does
not hold, on which the Rust code would panic; well-formed graphs never do). -/
def lookupInstr (d : CastDfg) (id : Nat) : Option Instruction :=
  (d.instructions.find? (fun e => e.1 == id)).map (·.2)

/-- Embeds `DataFlowGraph::type_of_value`. -/
def typeOfValue (d : CastDfg) (v : Value) : SsaType :=
  match v with
  | .instructionRes instruction position => d.instrResultType instruction position
  | .param block position => d.paramType block position
  | .numericConstant _ typ => .numeric typ
  | .functionRef _ => .functionType
  | .intrinsic _ => .functionType
  | .foreignFunction _ => .functionType

/-- Embeds `DataFlowGraph::get_numeric_constant_with_type`: resolve, then match a
numeric constant. -/
def getNumericConstantWithType (m : RepMap) (v : Value) : Option (Nat × NumericType) :=
  match resolveRep m v with
  | some (.numericConstant constant typ) => some (constant, typ)
  | _ => Option.none

/-- Embeds `simplify_cast` (`cast.rs`).  The outer `Option` is `none` when the Rust
code would diverge (cyclic forwarding chain) or panic (`unwrap_numeric` on a
non-numeric constant type, which cannot happen since constants carry numeric
tags).  Notes kept from the source:
* constants are field residues `< p`, so `BigUint::from_bytes_be` reads the
  residue itself, the `% 2^bit` reduction below is computed on it, and
  `FieldElement::from_be_bytes_reduce` is the identity on the already-reduced
  result;
* the signed arm computes `2^(bit_size - 1)` with `bit_size as u32 - 1`,
  which underflows for `bit_size = 0`; the model is only faithful for
  `bit_size ≥ 1` (signed 0-bit types do not occur). -/
def simplifyCast (d : CastDfg) (value0 : Value) (dstTyp : NumericType) :
    Option SimplifyResult :=
  match resolveRep d.replaced value0 with
  | Option.none => Option.none
  | some value =>
    match value with
    | .instructionRes instruction _ =>
      match lookupInstr d instruction with
      | some (.cast originalValue _) =>
        some (.simplifiedToInstruction (.cast originalValue dstTyp))
      | _ => simplifyCastResolved d value dstTyp
    | _ => simplifyCastResolved d value dstTyp
where
  /-- The body of `simplify_cast` after the cast-of-cast early return. -/
  simplifyCastResolved (d : CastDfg) (value : Value) (dstTyp : NumericType) :
      Option SimplifyResult :=
    match getNumericConstantWithType d.replaced value with
    | some (constant, _) =>
      match typeOfValue d value with
      | .numeric srcTyp =>
        match srcTyp, dstTyp with
        | .nativeField, .nativeField =>
          some (.simplifiedTo value)
        | .unsigned _, .nativeField | .signed _, .nativeField =>
          some (.simplifiedTo (.numericConstant constant dstTyp))
        | _, .unsigned bitSize =>
          some (.simplifiedTo
            (.numericConstant (constant % 2 ^ bitSize) (.unsigned bitSize)))
        | _, .signed bitSize =>
          if constant < 2 ^ (bitSize - 1) then
            some (.simplifiedTo (.numericConstant constant (.signed bitSize)))
          else some SimplifyResult.none
      | _ => Option.none
    | Option.none =>
      if SsaType.numeric dstTyp = typeOfValue d value then some (.simplifiedTo value)
      else some SimplifyResult.none

/-- C2: for every numeric constant (with no pending forwarding entry, as the
claim's "numeric constant v" denotes the constant itself), casting to
`Unsigned {bit}` simplifies to the constant reduced modulo `2^bit` retagged
with the destination type, and casting to `Signed {bit}` simplifies to the
same constant retagged exactly when its magnitude is strictly below
`2^(bit-1)`, returning no simplification otherwise. -/
theorem simplify_cast_constant (d : CastDfg) (c : Nat) (srcTyp : NumericType)
    (bit : Nat) (hbit : 1 ≤ bit)
    (hres : lookupRep d.replaced (Value.numericConstant c srcTyp) = Option.none) :
    simplifyCast d (Value.numericConstant c srcTyp) (NumericType.unsigned bit) =
      some (SimplifyResult.simplifiedTo
        (Value.numericConstant (c % 2 ^ bit) (NumericType.unsigned bit))) ∧
    (c < 2 ^ (bit - 1) →
      simplifyCast d (Value.numericConstant c srcTyp) (NumericType.signed bit) =
        some (SimplifyResult.simplifiedTo
          (Value.numericConstant c (NumericType.signed bit)))) ∧
    (2 ^ (bit - 1) ≤ c →
      simplifyCast d (Value.numericConstant c srcTyp) (NumericType.signed bit) =
        some SimplifyResult.none) := by
  have h1 : resolveRep d.replaced (Value.numericConstant c srcTyp) =
      some (Value.numericConstant c srcTyp) :=
    resolveRep_of_not_key _ _ hres
  have h2 : getNumericConstantWithType d.replaced (Value.numericConstant c srcTyp) =
      some (c, srcTyp) := by
    unfold getNumericConstantWithType
    rw [h1]
  refine ⟨?_, ?_, ?_⟩
  · unfold simplifyCast
    rw [h1]
    show simplifyCast.simplifyCastResolved d (Value.numericConstant c srcTyp)
      (NumericType.unsigned bit) = _
    unfold simplifyCast.simplifyCastResolved
    rw [h2]
    show (match srcTyp, NumericType.unsigned bit with
      | .nativeField, .nativeField =>
        some (SimplifyResult.simplifiedTo (Value.numericConstant c srcTyp))
      | .unsigned _, .nativeField | .signed _, .nativeField =>
        some (.simplifiedTo (.numericConstant c (NumericType.unsigned bit)))
      | _, .unsigned bitSize =>
        some (.simplifiedTo
          (.numericConstant (c % 2 ^ bitSize) (.unsigned bitSize)))
      | _, .signed bitSize =>
        if c < 2 ^ (bitSize - 1) then
          some (.simplifiedTo (.numericConstant c (.signed bitSize)))
        else some SimplifyResult.none) = _
    cases srcTyp <;> rfl
  · intro hlt
    unfold simplifyCast
    rw [h1]
    show simplifyCast.simplifyCastResolved d (Value.numericConstant c srcTyp)
      (NumericType.signed bit) = _
    unfold simplifyCast.simplifyCastResolved
    rw [h2]
    cases srcTyp <;> simp [typeOfValue, hlt]
  · intro hge
    unfold simplifyCast
    rw [h1]
    show simplifyCast.simplifyCastResolved d (Value.numericConstant c srcTyp)
      (NumericType.signed bit) = _
    unfold simplifyCast.simplifyCastResolved
    rw [h2]
    cases srcTyp <;> simp [typeOfValue, Nat.not_lt_of_le hge]

/-- The `CastDfg` used by the C2 witness: no instructions, no forwarding
entries, an arbitrary type assignment. -/
def witnessCastDfg : CastDfg :=
  { instructions := []
    replaced := []
    instrResultType := fun _ _ => SsaType.functionType
    paramType := fun _ _ => SsaType.functionType }

theorem simplify_cast_constant_witness :
    (1 ≤ 8 ∧
      lookupRep witnessCastDfg.replaced
        (Value.numericConstant 300 NumericType.nativeField) = Option.none) ∧
    simplifyCast witnessCastDfg (Value.numericConstant 300 NumericType.nativeField)
        (NumericType.unsigned 8) =
      some (SimplifyResult.simplifiedTo
        (Value.numericConstant 44 (NumericType.unsigned 8))) ∧
    (300 < 2 ^ 7 →
      simplifyCast witnessCastDfg (Value.numericConstant 300 NumericType.nativeField)
          (NumericType.signed 8) =
        some (SimplifyResult.simplifiedTo
          (Value.numericConstant 300 (NumericType.signed 8)))) ∧
    (2 ^ 7 ≤ 300 →
      simplifyCast witnessCastDfg (Value.numericConstant 300 NumericType.nativeField)
          (NumericType.signed 8) =
        some SimplifyResult.none) := by
  have h := simplify_cast_constant witnessCastDfg 300 NumericType.nativeField 8
    (by decide) (by decide)
  refine ⟨⟨by decide, by decide⟩, ?_, h.2.1, h.2.2⟩
  have := h.1
  rw [this]
  rfl

/-! ## ValueMerger (`opt/flatten_cfg/value_merger.rs`) -/

/-- Embeds `ValueMerger::merge_values`.  Both operands are first resolved in the
forwarding map; if the resolved values are equal the resolved then-value is
returned immediately and no instruction is emitted (source lines 62-67).
When the resolved values differ the source dispatches on the then-value's
type and emits merge instructions into the block; that branch is modelled as
`Option.none` (out of modelled scope) because it is unreachable for the claim
under study: when both operands are the same value, deterministic resolution
makes the equality test succeed.  The outer `Option` is also `none` when a
`resolve` call would diverge.  The conditions are passed through untouched
exactly as in the source, which does not read them before the early return. -/
def mergeValues (m : RepMap) (thenCondition elseCondition thenValue elseValue : Value) :
    Option (Value × List Instruction) := do
  let thenValueR ← resolveRep m thenValue
  let elseValueR ← resolveRep m elseValue
  if thenValueR = elseValueR then pure (thenValueR, [])
  else Option.none

/-- C7 counterexample: `merge_values(c, !c, a, a)` does not return `a` itself
when `a` carries a forwarding entry: with `a = param 0 0` forwarded to
`param 1 0`, the merge returns the resolved value `param 1 0 ≠ a`. -/
theorem merge_values_counterexample :
    mergeValues [(Value.param 0 0, Value.param 1 0)]
        (Value.numericConstant 1 (NumericType.unsigned 1))
        (Value.numericConstant 0 (NumericType.unsigned 1))
        (Value.param 0 0) (Value.param 0 0) =
      some (Value.param 1 0, []) ∧
    Value.param 1 0 ≠ Value.param 0 0 := by decide

/-- C7 (amended): for every predicate pair and every value `a` on which
`resolve` terminates, `merge_values(c, !c, a, a)` returns `resolve(a)` - which
is `a` itself exactly when `a` has no pending forwarding entry - and emits no
instructions into the merge block. -/
theorem merge_values_idempotent (m : RepMap) (c d a w : Value)
    (h : resolveRep m a = some w) :
    mergeValues m c d a a = some (w, []) ∧
    (lookupRep m a = Option.none → mergeValues m c d a a = some (a, [])) := by
  constructor
  · unfold mergeValues
    rw [h]
    simp
  · intro hnone
    unfold mergeValues
    rw [resolveRep_of_not_key m a hnone]
    simp

theorem merge_values_idempotent_witness :
    resolveRep [] (Value.param 2 0) = some (Value.param 2 0) ∧
    (mergeValues [] (Value.numericConstant 1 (NumericType.unsigned 1))
        (Value.numericConstant 0 (NumericType.unsigned 1))
        (Value.param 2 0) (Value.param 2 0) =
      some (Value.param 2 0, []) ∧
    (lookupRep [] (Value.param 2 0) = Option.none →
      mergeValues [] (Value.numericConstant 1 (NumericType.unsigned 1))
          (Value.numericConstant 0 (NumericType.unsigned 1))
          (Value.param 2 0) (Value.param 2 0) =
        some (Value.param 2 0, []))) :=
  ⟨by decide,
    merge_values_idempotent [] (Value.numericConstant 1 (NumericType.unsigned 1))
      (Value.numericConstant 0 (NumericType.unsigned 1))
      (Value.param 2 0) (Value.param 2 0) (by decide)⟩

/-! ## The `resolve_is_unconstrained` pass (`opt/resolve_is_unconstrained.rs`) -/

/-- Mirrors `RuntimeType` in `ssa/ir/function.rs` (declared outside `src/`;
its two variants are fixed by the spec: `Acir{inline_type}` or
`Brillig{inline_type}`). -/
inductive RuntimeType
  | acir (inlineType : Nat)
  | brillig (inlineType : Nat)
deriving DecidableEq, Repr

/-- The slice of a `Function` the pass reads.  Blocks pair each instruction id
with its arena entry (the Rust code stores ids in the block and the
instructions in the DFG's `DenseMap`; the lookup is inlined here).
`reachable` is the output of `Function::reachable_blocks`.  Modelled from the
spec: `reachable_blocks` itself is declared outside `src/`; per the data
model, a block created by `make_block` "is unreachable in the current
function until another block is made to jump to it", so the reachable set is
carried as given data - any subset of the block ids is realizable. -/
structure SsaFunction where
  runtime : RuntimeType
  blocks : List (Nat × List (Nat × Instruction))
  reachable : List Nat
  replaced : RepMap
deriving DecidableEq, Repr

/-- The instruction list of a block (empty for an id with no block, on which
the Rust indexing would panic; well-formed functions never do). -/
def blockInstrs (f : SsaFunction) (b : Nat) : List (Nat × Instruction) :=
  ((f.blocks.find? (fun e => e.1 == b)).map (·.2)).getD []

/-- The collection predicate of the pass: a `Call` whose callee resolves to
`Intrinsic::IsUnconstrained`.  (On a map where `resolve` diverges the Rust
pass diverges; the theorems below assume termination, and the model treats a
failed resolve as a non-match.) -/
def isUnconstrainedCallB (m : RepMap) (ins : Instruction) : Bool :=
  match ins with
  | .call func _ => resolveRep m func == some (Value.intrinsic .isUnconstrained)
  | _ => false

/-- The ids collected into `is_unconstrained_calls`. -/
def collectedCalls (f : SsaFunction) : List Nat :=
  f.reachable.flatMap fun b =>
    ((blockInstrs f b).filter fun e => isUnconstrainedCallB f.replaced e.2).map (·.1)

/-- The block ids collected into `blocks_with_is_unconstrained_calls`. -/
def collectedBlocks (f : SsaFunction) : List Nat :=
  f.reachable.filter fun b =>
    (blockInstrs f b).any fun e => isUnconstrainedCallB f.replaced e.2

/-- Embeds `matches!(self.runtime(), RuntimeType::Brillig(_)).into()` as a field
element: 1 for a Brillig runtime, 0 for ACIR. -/
def runtimeBool (r : RuntimeType) : Nat :=
  match r with
  | .brillig _ => 1
  | .acir _ => 0

/-- Embeds `NumericType::bool()`. -/
def boolType : NumericType := NumericType.unsigned 1

/-- The replacement loop of the pass: one `replace_value` per collected call,
forwarding `Value::instruction_result(id, 0)` to the runtime constant. -/
def replaceCollected (ids : List Nat) (cb : Value) (m : RepMap) : Option RepMap :=
  match ids with
  | [] => some m
  | id :: rest =>
    match replaceValue m (Value.instructionRes id 0) cb with
    | some m' => replaceCollected rest cb m'
    | Option.none => Option.none

/-- The function state after the pass's replacement loop has produced the
forwarding map `m'`: blocks that contained collected calls retain only the
non-collected instructions. -/
def passResult (f : SsaFunction) (m' : RepMap) : SsaFunction :=
  { f with
    replaced := m'
    blocks := f.blocks.map fun bl =>
      if bl.1 ∈ collectedBlocks f then
        (bl.1, bl.2.filter fun e => !((collectedCalls f).contains e.1))
      else bl }

/-- Embeds `Function::replace_is_unconstrained_result`: collect, replace every
result by the runtime constant, then retain only non-collected instructions
in the blocks that contained collected calls. -/
def replaceIsUnconstrainedResult (f : SsaFunction) : Option SsaFunction :=
  (replaceCollected (collectedCalls f)
      (Value.numericConstant (runtimeBool f.runtime) boolType)
      f.replaced).map (passResult f)

/-- C4 counterexample: the pass only scans `reachable_blocks()`, so a call to
`Intrinsic::IsUnconstrained` sitting in an unreachable block survives the
pass: here block 1 is not reachable from the entry and its call remains. -/
def c4Function : SsaFunction :=
  { runtime := .acir 0
    blocks := [(0, []), (1, [(5, Instruction.call (Value.intrinsic .isUnconstrained) [])])]
    reachable := [0]
    replaced := [] }

theorem is_unconstrained_unreachable_counterexample :
    replaceIsUnconstrainedResult c4Function = some c4Function ∧
    blockInstrs c4Function 1 =
      [(5, Instruction.call (Value.intrinsic .isUnconstrained) [])] ∧
    isUnconstrainedCallB c4Function.replaced
      (Instruction.call (Value.intrinsic .isUnconstrained) []) = true := by decide

theorem lookupRep_append_some (l m : RepMap) (v w : Value)
    (h : lookupRep l v = some w) : lookupRep (l ++ m) v = some w := by
  induction l with
  | nil => exact absurd h (by simp [lookupRep])
  | cons e rest ih =>
    obtain ⟨k, x⟩ := e
    show lookupRep ((k, x) :: (rest ++ m)) v = some w
    unfold lookupRep at h ⊢
    by_cases hk : k = v
    · rw [if_pos hk] at h ⊢
      exact h
    · rw [if_neg hk] at h ⊢
      exact ih h

theorem lookupRep_append_none (l m : RepMap) (v : Value)
    (h : lookupRep l v = Option.none) : lookupRep (l ++ m) v = lookupRep m v := by
  induction l with
  | nil => rfl
  | cons e rest ih =>
    obtain ⟨k, x⟩ := e
    show lookupRep ((k, x) :: (rest ++ m)) v = lookupRep m v
    unfold lookupRep at h
    by_cases hk : k = v
    · rw [if_pos hk] at h
      cases h
    · rw [if_neg hk] at h
      show (if k = v then some x else lookupRep (rest ++ m) v) = lookupRep m v
      rw [if_neg hk]
      exact ih h

/-- In a map whose prefix entries all forward to a terminal value `cb` (one
with no forwarding entry of its own), any chain that resolves to something
other than `cb` never touches the prefix, hence resolves identically in the
suffix map. -/
theorem resolveF_through_const_prefix (l m : RepMap) (cb : Value)
    (hval : ∀ e ∈ l, e.2 = cb) (hcb : lookupRep (l ++ m) cb = Option.none) :
    ∀ fuel v r, resolveF (l ++ m) fuel v = some r → r ≠ cb →
      resolveF m fuel v = some r := by
  intro fuel
  induction fuel with
  | zero => intro v r h; exact absurd h (by simp [resolveF])
  | succ f ih =>
    intro v r h hne
    cases hl : lookupRep l v with
    | some w =>
      have hw : w = cb := by
        have hmem : (v, w) ∈ l := by
          clear h ih hval hcb
          induction l with
          | nil => exact absurd hl (by simp [lookupRep])
          | cons e rest ihl =>
            unfold lookupRep at hl
            by_cases hk : e.1 = v
            · rw [if_pos hk] at hl
              cases hl
              have he : e = (v, e.2) := by rw [← hk]
              rw [← he]
              exact List.mem_cons_self e rest
            · rw [if_neg hk] at hl
              exact List.mem_cons_of_mem _ (ihl hl)
        exact hval (v, w) hmem
      rw [hw] at hl
      unfold resolveF at h
      rw [lookupRep_append_some l m v cb hl] at h
      cases f with
      | zero => exact absurd h (by simp [resolveF])
      | succ f' =>
        unfold resolveF at h
        rw [hcb] at h
        cases h
        exact absurd rfl hne
    | none =>
      unfold resolveF at h ⊢
      rw [lookupRep_append_none l m v hl] at h
      cases hm : lookupRep m v with
      | none => rw [hm] at h; exact h
      | some u => rw [hm] at h; exact ih u r h hne

/-- The replacement loop succeeds whenever the runtime constant has no
forwarding entry, and produces exactly a prefix of constant entries keyed by
the collected result values. -/
theorem replaceCollected_spec (cb : Value)
    (hcbv : ∀ i : Nat, Value.instructionRes i 0 ≠ cb) :
    ∀ (ids : List Nat) (m : RepMap), lookupRep m cb = Option.none →
      ∃ l, replaceCollected ids cb m = some (l ++ m) ∧
        (∀ e ∈ l, e.2 = cb) ∧
        (∀ k, lookupRep l k ≠ Option.none ↔
          k ∈ ids.map (fun i => Value.instructionRes i 0)) := by
  intro ids
  induction ids with
  | nil =>
    intro m hm
    refine ⟨[], rfl, by simp, ?_⟩
    intro k
    simp [lookupRep]
  | cons id rest ih =>
    intro m hm
    have hres : resolveRep m cb = some cb := resolveRep_of_not_key m cb hm
    have hstep : replaceValue m (Value.instructionRes id 0) cb =
        some (insertRep m (Value.instructionRes id 0) cb) := by
      unfold replaceValue
      rw [if_neg (hcbv id), hres]
      rfl
    have hm' : lookupRep (insertRep m (Value.instructionRes id 0) cb) cb = Option.none := by
      show lookupRep ((Value.instructionRes id 0, cb) :: m) cb = Option.none
      unfold lookupRep
      rw [if_neg (hcbv id)]
      exact hm
    obtain ⟨l, hrun, hval, hkeys⟩ := ih (insertRep m (Value.instructionRes id 0) cb) hm'
    refine ⟨l ++ [(Value.instructionRes id 0, cb)], ?_, ?_, ?_⟩
    · unfold replaceCollected
      rw [hstep]
      show replaceCollected rest cb (insertRep m (Value.instructionRes id 0) cb) =
        some (l ++ [(Value.instructionRes id 0, cb)] ++ m)
      rw [List.append_assoc]
      exact hrun
    · intro e he
      rcases List.mem_append.mp he with h1 | h2
      · exact hval e h1
      · rcases List.mem_singleton.mp h2 with rfl
        rfl
    · intro k
      cases hlk : lookupRep l k with
      | some w =>
        rw [lookupRep_append_some l _ k w hlk]
        have hmem := (hkeys k).mp (by rw [hlk]; simp)
        simp only [List.map_cons, List.mem_cons]
        constructor
        · intro _
          exact Or.inr hmem
        · intro _
          simp
      | none =>
        rw [lookupRep_append_none l _ k hlk]
        by_cases hk : Value.instructionRes id 0 = k
        · constructor
          · intro _
            simp only [List.map_cons, List.mem_cons]
            exact Or.inl hk.symm
          · intro _
            show (if Value.instructionRes id 0 = k then some cb else lookupRep [] k) ≠
              Option.none
            rw [if_pos hk]
            simp
        · have hsingle : lookupRep [(Value.instructionRes id 0, cb)] k = Option.none := by
            show (if Value.instructionRes id 0 = k then some cb else lookupRep [] k) =
              Option.none
            rw [if_neg hk]
            rfl
          rw [hsingle]
          constructor
          · intro hne
            exact absurd rfl hne
          · intro hmem
            simp only [List.map_cons, List.mem_cons] at hmem
            rcases hmem with h1 | h2
            · exact absurd h1.symm hk
            · have := (hkeys k).mpr h2
              rw [hlk] at this
              exact absurd rfl this

theorem lookupRep_some_mem (l : RepMap) (v w : Value)
    (h : lookupRep l v = some w) : (v, w) ∈ l := by
  induction l with
  | nil => exact absurd h (by simp [lookupRep])
  | cons e rest ih =>
    unfold lookupRep at h
    by_cases hk : e.1 = v
    · rw [if_pos hk] at h
      cases h
      have he : e = (v, e.2) := by rw [← hk]
      rw [← he]
      exact List.mem_cons_self e rest
    · rw [if_neg hk] at h
      exact List.mem_cons_of_mem _ (ih h)

theorem find?_key_map (g : Nat × List (Nat × Instruction) → Nat × List (Nat × Instruction))
    (hg : ∀ bl, (g bl).1 = bl.1) (L : List (Nat × List (Nat × Instruction))) (b : Nat) :
    (L.map g).find? (fun e => e.1 == b) = (L.find? (fun e => e.1 == b)).map g := by
  induction L with
  | nil => rfl
  | cons bl rest ih =>
    show ((g bl) :: rest.map g).find? (fun e => e.1 == b) = _
    simp only [List.find?]
    rw [hg bl]
    cases hb : (bl.1 == b) with
    | true => rfl
    | false => exact ih

theorem blockInstrs_passResult (f : SsaFunction) (m' : RepMap) (b : Nat) :
    blockInstrs (passResult f m') b =
      match f.blocks.find? (fun e => e.1 == b) with
      | some bl =>
        if bl.1 ∈ collectedBlocks f then
          bl.2.filter fun e => !((collectedCalls f).contains e.1)
        else bl.2
      | Option.none => [] := by
  have hg : ∀ bl : Nat × List (Nat × Instruction),
      ((fun bl => if bl.1 ∈ collectedBlocks f then
        (bl.1, bl.2.filter fun e => !((collectedCalls f).contains e.1))
      else bl) bl).1 = bl.1 := by
    intro bl
    dsimp only
    split <;> rfl
  have hmap : (passResult f m').blocks = f.blocks.map (fun bl =>
      if bl.1 ∈ collectedBlocks f then
        (bl.1, bl.2.filter fun e => !((collectedCalls f).contains e.1))
      else bl) := rfl
  unfold blockInstrs
  rw [hmap, find?_key_map _ hg]
  cases hfind : f.blocks.find? (fun e => e.1 == b) with
  | none => rfl
  | some bl =>
    show (if bl.1 ∈ collectedBlocks f then
        (bl.1, bl.2.filter fun e => !((collectedCalls f).contains e.1))
      else bl).2 =
      (if bl.1 ∈ collectedBlocks f then
        bl.2.filter fun e => !((collectedCalls f).contains e.1)
      else bl.2)
    by_cases hbw : bl.1 ∈ collectedBlocks f
    · rw [if_pos hbw, if_pos hbw]
    · rw [if_neg hbw, if_neg hbw]

/-- C4 (amended): after the pass, no call to `Intrinsic::IsUnconstrained`
remains in any *reachable* block of the function (the pass only scans
`reachable_blocks()`, so the restriction to reachable blocks is forced by the
counterexample above), and the first result of every collected call resolves
to the boolean constant that is 1 iff the function's runtime is Brillig.  The
hypotheses say that the incoming forwarding map is acyclic and that the
runtime constant itself carries no forwarding entry (optimization passes
never replace a constant). -/
theorem resolve_is_unconstrained_reachable (f : SsaFunction)
    (hacyc : ∀ v, (resolveRep f.replaced v).isSome)
    (hconst : lookupRep f.replaced
      (Value.numericConstant (runtimeBool f.runtime) boolType) = Option.none) :
    ∃ f', replaceIsUnconstrainedResult f = some f' ∧
      (∀ b ∈ f'.reachable, ∀ e ∈ blockInstrs f' b,
        isUnconstrainedCallB f'.replaced e.2 = false) ∧
      (∀ id ∈ collectedCalls f,
        resolveRep f'.replaced (Value.instructionRes id 0) =
          some (Value.numericConstant (runtimeBool f.runtime) boolType)) := by
  obtain ⟨l, hrun, hval, hkeys⟩ :=
    replaceCollected_spec (Value.numericConstant (runtimeBool f.runtime) boolType)
      (fun i h => Value.noConfusion h) (collectedCalls f) f.replaced hconst
  have hlcb : lookupRep l (Value.numericConstant (runtimeBool f.runtime) boolType) =
      Option.none := by
    cases hx : lookupRep l (Value.numericConstant (runtimeBool f.runtime) boolType) with
    | none => rfl
    | some w =>
      have hmem := (hkeys _).mp (by rw [hx]; simp)
      obtain ⟨i, _, hi⟩ := List.mem_map.mp hmem
      exact Value.noConfusion hi
  have hcb' : lookupRep (l ++ f.replaced)
      (Value.numericConstant (runtimeBool f.runtime) boolType) = Option.none := by
    rw [lookupRep_append_none _ _ _ hlcb]
    exact hconst
  refine ⟨passResult f (l ++ f.replaced), ?_, ?_, ?_⟩
  · unfold replaceIsUnconstrainedResult
    rw [hrun]
    rfl
  · intro b hb e he
    cases hcall : isUnconstrainedCallB (passResult f (l ++ f.replaced)).replaced e.2 with
    | false => rfl
    | true =>
      exfalso
      have hrepl : (passResult f (l ++ f.replaced)).replaced = l ++ f.replaced := rfl
      rw [hrepl] at hcall
      have hreach : b ∈ f.reachable := hb
      cases hins : e.2 with
      | cast v t => rw [hins] at hcall; exact Bool.noConfusion hcall
      | otherInstruction n => rw [hins] at hcall; exact Bool.noConfusion hcall
      | call func args =>
        rw [hins] at hcall
        have hres : resolveRep (l ++ f.replaced) func =
            some (Value.intrinsic .isUnconstrained) := eq_of_beq hcall
        have hne : Value.intrinsic Intrinsic.isUnconstrained ≠
            Value.numericConstant (runtimeBool f.runtime) boolType :=
          fun h => Value.noConfusion h
        have h0 := resolveF_through_const_prefix l f.replaced
          (Value.numericConstant (runtimeBool f.runtime) boolType) hval hcb'
          ((l ++ f.replaced).length + 1) func (Value.intrinsic .isUnconstrained) hres hne
        obtain ⟨r0, hr0⟩ := Option.isSome_iff_exists.mp (hacyc func)
        have h1 := resolveF_mono f.replaced (f.replaced.length + 1) func r0 hr0
          ((l ++ f.replaced).length + 1) (by simp)
        rw [h1] at h0
        injection h0 with h0'
        rw [h0'] at hr0
        have hcall0 : isUnconstrainedCallB f.replaced e.2 = true := by
          rw [hins]
          show (resolveRep f.replaced func ==
            some (Value.intrinsic .isUnconstrained)) = true
          rw [hr0]
          simp
        have hbi := blockInstrs_passResult f (l ++ f.replaced) b
        rw [hbi] at he
        cases hfind : f.blocks.find? (fun e => e.1 == b) with
        | none =>
          rw [hfind] at he
          exact absurd he (List.not_mem_nil e)
        | some bl =>
          rw [hfind] at he
          replace he : e ∈ (if bl.1 ∈ collectedBlocks f then
              bl.2.filter fun e => !((collectedCalls f).contains e.1)
            else bl.2) := he
          have hble : blockInstrs f b = bl.2 := by
            unfold blockInstrs
            rw [hfind]
            rfl
          have hpb := List.find?_some hfind
          have hb1 : bl.1 = b := eq_of_beq hpb
          by_cases hbw : bl.1 ∈ collectedBlocks f
          · rw [if_pos hbw] at he
            have hmf := List.mem_filter.mp he
            have hememb : e ∈ blockInstrs f b := by
              rw [hble]
              exact hmf.1
            have hid : e.1 ∈ collectedCalls f := by
              unfold collectedCalls
              refine List.mem_flatMap.mpr ⟨b, hreach, ?_⟩
              exact List.mem_map.mpr ⟨e, List.mem_filter.mpr ⟨hememb, hcall0⟩, rfl⟩
            have hmf2 : (!(collectedCalls f).contains e.1) = true := hmf.2
            rw [show (collectedCalls f).contains e.1 = true from
              List.elem_eq_true_of_mem hid] at hmf2
            exact Bool.noConfusion hmf2
          · rw [if_neg hbw] at he
            have hbin : b ∈ collectedBlocks f := by
              unfold collectedBlocks
              refine List.mem_filter.mpr ⟨hreach, ?_⟩
              refine List.any_eq_true.mpr ⟨e, ?_, hcall0⟩
              rw [hble]
              exact he
            rw [hb1] at hbw
            exact hbw hbin
  · intro id hid
    have hlk : lookupRep l (Value.instructionRes id 0) ≠ Option.none :=
      (hkeys _).mpr (List.mem_map.mpr ⟨id, hid, rfl⟩)
    cases hx : lookupRep l (Value.instructionRes id 0) with
    | none => exact absurd hx hlk
    | some w =>
      have hw : w = Value.numericConstant (runtimeBool f.runtime) boolType :=
        hval _ (lookupRep_some_mem l _ w hx)
      have hfull : lookupRep (l ++ f.replaced) (Value.instructionRes id 0) =
          some (Value.numericConstant (runtimeBool f.runtime) boolType) := by
        rw [← hw]
        exact lookupRep_append_some l _ _ w hx
      obtain ⟨t, ht⟩ : ∃ t, (l ++ f.replaced).length = t + 1 := by
        cases l with
        | nil => exact absurd hx (by simp [lookupRep])
        | cons a as => exact ⟨(as ++ f.replaced).length, by simp⟩
      show resolveRep (l ++ f.replaced) (Value.instructionRes id 0) =
        some (Value.numericConstant (runtimeBool f.runtime) boolType)
      unfold resolveRep
      rw [ht]
      show resolveF (l ++ f.replaced) (t + 1 + 1) (Value.instructionRes id 0) =
        some (Value.numericConstant (runtimeBool f.runtime) boolType)
      unfold resolveF
      rw [hfull]
      show resolveF (l ++ f.replaced) (t + 1)
          (Value.numericConstant (runtimeBool f.runtime) boolType) =
        some (Value.numericConstant (runtimeBool f.runtime) boolType)
      unfold resolveF
      rw [hcb']

/-- The function used by the C4 witness: a Brillig-runtime function whose
entry block holds one `IsUnconstrained` call. -/
def c4WitnessFunction : SsaFunction :=
  { runtime := .brillig 0
    blocks := [(0, [(7, Instruction.call (Value.intrinsic .isUnconstrained) [])])]
    reachable := [0]
    replaced := [] }

theorem resolve_is_unconstrained_reachable_witness :
    (∀ v, (resolveRep c4WitnessFunction.replaced v).isSome) ∧
    ∃ f', replaceIsUnconstrainedResult c4WitnessFunction = some f' ∧
      (∀ b ∈ f'.reachable, ∀ e ∈ blockInstrs f' b,
        isUnconstrainedCallB f'.replaced e.2 = false) ∧
      (∀ id ∈ collectedCalls c4WitnessFunction,
        resolveRep f'.replaced (Value.instructionRes id 0) =
          some (Value.numericConstant (runtimeBool c4WitnessFunction.runtime) boolType)) :=
  ⟨fun _ => rfl,
    resolve_is_unconstrained_reachable c4WitnessFunction (fun _ => rfl) (by decide)⟩

/-! ## Brillig global initialization (`brillig/mod.rs`)

`initialize_constant_array` chooses between a runtime loop and a straight-line
(comptime) store sequence.  The opcode emission helpers of `BrilligContext`
live in `brillig/brillig_ir` (outside `src/`).  Modelled from the spec: each
`store_instruction` emits one store opcode, each `memory_op_instruction` and
`mov_instruction` one arithmetic/move opcode, and `codegen_for_loop` wraps its
body in loop scaffolding; only opcode counts matter to the claim. -/

/-- The Brillig opcodes distinguished by the global initializer model. -/
inductive GOp
  | store
  | memoryOp
  | mov
  | usizeConst
  | loopScaffold
deriving DecidableEq, Repr

/-- The element types of the repeating group, reduced to what the dispatch
inspects: whether each one is `Type::Numeric(_)`. -/
def allNumeric (itemTypes : List SsaType) : Bool :=
  itemTypes.all fun t =>
    match t with
    | .numeric _ => true
    | _ => false

/-- The `is_repeating` scan: for every start index `g, 2g, …` below
`data.len()`, the `g`-element group there equals the first group.  (The Rust
loop indexes `data[item_index + i]` and panics past the end; on the
well-formed inputs considered - `g ∣ data.length`, as `MakeArray` data always
satisfies since its length is `typ.length × |element_types|` - every access is
in bounds and `take` reads the same elements.) -/
def isRepeating (data : List Nat) (g : Nat) : Bool :=
  (List.range data.length).all fun idx =>
    if idx % g = 0 ∧ g ≤ idx then
      ((data.drop idx).take g) == (data.take g)
    else true

/-- Embeds `initialize_constant_array_comptime`: a `mov` to set up the write
pointer, then for each flattened element one store, plus a pointer increment
after every element but the last. -/
def initializeConstantArrayComptime (data : List Nat) : List GOp :=
  GOp.mov :: (List.range data.length).flatMap fun idx =>
    if idx ≠ data.length - 1 then [GOp.store, GOp.memoryOp] else [GOp.store]

/-- Embeds `initialize_constant_array_runtime` (loop strategy), kept abstract except
for its scaffolding: the claim only constrains which strategy is chosen. -/
def initializeConstantArrayRuntime (itemTypes : List SsaType) : List GOp :=
  [GOp.usizeConst, GOp.memoryOp] ++
    (if itemTypes.length > 1 then [GOp.usizeConst] else []) ++ [GOp.loopScaffold]

/-- The strategy chosen by `initialize_constant_array`. -/
inductive InitStrategy
  | emptyInit
  | runtimeLoop
  | comptime
deriving DecidableEq, Repr

/-- The dispatch of `initialize_constant_array`: nothing for empty data;
the runtime loop iff `item_count > 10`, the group repeats, and every element
type is numeric; the straight-line sequence otherwise.
`item_count = data.len() / item_types.len()`. -/
def chooseStrategy (data : List Nat) (itemTypes : List SsaType) : InitStrategy :=
  if data.isEmpty then .emptyInit
  else if data.length / itemTypes.length > 10 ∧
      isRepeating data itemTypes.length = true ∧ allNumeric itemTypes = true then
    .runtimeLoop
  else .comptime

/-- The opcodes emitted by `initialize_constant_array`. -/
def initializeConstantArray (data : List Nat) (itemTypes : List SsaType) : List GOp :=
  match chooseStrategy data itemTypes with
  | .emptyInit => []
  | .runtimeLoop => initializeConstantArrayRuntime itemTypes
  | .comptime => initializeConstantArrayComptime data

/-- Number of store opcodes in an emission. -/
def countStores (ops : List GOp) : Nat :=
  (ops.filter fun o => o == GOp.store).length

theorem countStores_comptime (data : List Nat) :
    countStores (initializeConstantArrayComptime data) = data.length := by
  unfold countStores initializeConstantArrayComptime
  rw [List.filter_cons]
  rw [if_neg (by decide)]
  rw [List.filter_flatMap]
  rw [List.length_flatMap]
  have h : ∀ idx, ((if idx ≠ data.length - 1 then [GOp.store, GOp.memoryOp]
      else [GOp.store]).filter (fun o => o == GOp.store)).length = 1 := by
    intro idx
    by_cases hi : idx ≠ data.length - 1
    · rw [if_pos hi]; rfl
    · rw [if_neg hi]; rfl
  simp only [Function.comp_def]
  rw [List.map_congr_left (fun idx _ => h idx)]
  simp

/-- C3: for a nonempty constant global array whose flattened data is a whole
number of copies of a repeating all-numeric group (as `MakeArray` data always
is: its length is `typ.length × |element_types|`), Brillig global
initialization picks the runtime-loop strategy iff `item_count > 10`, and the
straight-line strategy iff `item_count ≤ 10`; the straight-line bytecode
contains exactly `item_count × group_len` store opcodes, one per flattened
element. -/
theorem global_init_threshold (data : List Nat) (itemTypes : List SsaType) (g : Nat)
    (hg : g = itemTypes.length) (hgpos : 0 < g) (hne : data ≠ [])
    (hdvd : g ∣ data.length)
    (hrep : isRepeating data g = true) (hnum : allNumeric itemTypes = true) :
    (chooseStrategy data itemTypes = .runtimeLoop ↔ 10 < data.length / g) ∧
    (data.length / g ≤ 10 →
      chooseStrategy data itemTypes = .comptime ∧
      countStores (initializeConstantArray data itemTypes) =
        (data.length / g) * g) := by
  subst hg
  have hnemp : data.isEmpty = false := by
    cases data with
    | nil => exact absurd rfl hne
    | cons a as => rfl
  have hchoose : chooseStrategy data itemTypes =
      if data.length / itemTypes.length > 10 then InitStrategy.runtimeLoop
      else InitStrategy.comptime := by
    unfold chooseStrategy
    rw [hnemp]
    show (if data.length / itemTypes.length > 10 ∧
        isRepeating data itemTypes.length = true ∧ allNumeric itemTypes = true then
      InitStrategy.runtimeLoop else InitStrategy.comptime) = _
    by_cases h10 : data.length / itemTypes.length > 10
    · rw [if_pos ⟨h10, hrep, hnum⟩, if_pos h10]
    · rw [if_neg (fun hc => h10 hc.1), if_neg h10]
  constructor
  · rw [hchoose]
    by_cases h10 : data.length / itemTypes.length > 10
    · rw [if_pos h10]
      exact ⟨fun _ => h10, fun _ => rfl⟩
    · rw [if_neg h10]
      exact ⟨fun hc => InitStrategy.noConfusion hc, fun hc => absurd hc h10⟩
  · intro hle
    have hc : chooseStrategy data itemTypes = InitStrategy.comptime := by
      rw [hchoose, if_neg (Nat.not_lt_of_le hle)]
    refine ⟨hc, ?_⟩
    unfold initializeConstantArray
    rw [hc]
    rw [countStores_comptime]
    rw [Nat.div_mul_cancel hdvd]

theorem global_init_threshold_witness :
    ((1 : Nat) = [SsaType.numeric (NumericType.unsigned 32)].length ∧ (0 : Nat) < 1 ∧
      ([5, 5, 5] : List Nat) ≠ [] ∧ (1 : Nat) ∣ 3 ∧
      isRepeating [5, 5, 5] 1 = true ∧
      allNumeric [SsaType.numeric (NumericType.unsigned 32)] = true) ∧
    ((chooseStrategy [5, 5, 5] [SsaType.numeric (NumericType.unsigned 32)] =
        .runtimeLoop ↔ 10 < [5, 5, 5].length / 1) ∧
      ([5, 5, 5].length / 1 ≤ 10 →
        chooseStrategy [5, 5, 5] [SsaType.numeric (NumericType.unsigned 32)] =
          .comptime ∧
        countStores (initializeConstantArray [5, 5, 5]
          [SsaType.numeric (NumericType.unsigned 32)]) =
          ([5, 5, 5].length / 1) * 1)) :=
  ⟨⟨by decide, by decide, by decide, by decide, by decide, by decide⟩,
    global_init_threshold [5, 5, 5] [SsaType.numeric (NumericType.unsigned 32)] 1
      (by decide) (by decide) (by decide) (by decide) (by decide) (by decide)⟩

/-! ## Bit-shift lowering (`opt/remove_bit_shifts.rs`)

The pass rewrites each `Shl`/`Shr` in the entry block into a straight-line
sequence of mul/div/cast/truncate/`ToBits` instructions and forwards the old
result to the new one.  The embedding fuses emission with evaluation: each
`insert_*` helper below is replaced by the semantic value of the instruction
it emits on the concrete operand values, so the Lean definitions mirror the
Rust control flow line by line while computing the value the emitted SSA
evaluates to.  Modelled from the spec: the evaluation semantics of the
emitted instructions (the ACIR/Brillig backends are outside the embedded
sources) is the standard one - field operations act modulo the field modulus
`p`; integer operations act on `bit_size`-bit residues, with both operands
interpreted in the instruction's type (signed ops through two's-complement
interpretation, division truncating toward zero); `Cast` is value-preserving
(it never truncates - the pass inserts explicit `Truncate` instructions,
which reduce modulo `2^bit_size`, wherever needed); the little-endian
`ToBits` intrinsic yields the binary digits of its operand. -/

/-- Field multiplication: residues modulo `p`. -/
def fieldMul (p a b : Nat) : Nat := a * b % p

/-- Field addition: residues modulo `p`. -/
def fieldAdd (p a b : Nat) : Nat := (a + b) % p

/-- Embeds `Truncate { bit_size, .. }`: reduce modulo `2^bit_size`. -/
def truncVal (bitSize v : Nat) : Nat := v % 2 ^ bitSize

/-- Unsigned `Mul` in a `u`-bit type (wrapping; the pass only emits it where
no wrap occurs). -/
def uintMul (u a b : Nat) : Nat := a * b % 2 ^ u

/-- Unsigned `Div` in a `u`-bit type: both operands interpreted as `u`-bit
residues. -/
def uintDiv (u a b : Nat) : Nat := a % 2 ^ u / (b % 2 ^ u)

/-- The two's-complement interpretation of a `u`-bit residue. -/
def toIntS (u L : Nat) : Int :=
  if L < 2 ^ (u - 1) then (L : Int) else (L : Int) - 2 ^ u

/-- The `u`-bit residue of an integer. -/
def residueS (u : Nat) (x : Int) : Nat := (x % (2 ^ u : Int)).toNat

/-- Signed `Div` in a `u`-bit type: truncated (toward-zero) division of the
two's-complement interpretations. -/
def sintDiv (u a b : Nat) : Nat :=
  residueS u (Int.tdiv (toIntS u (a % 2 ^ u)) (toIntS u (b % 2 ^ u)))

/-- Signed `Sub` in a `u`-bit type (wrapping). -/
def sintSub (u a b : Nat) : Nat :=
  residueS u (toIntS u (a % 2 ^ u) - toIntS u (b % 2 ^ u))

/-- Bit `j` of `r`: the `ArrayGet` on the little-endian `ToBits` result. -/
def bitOf (r j : Nat) : Nat := r / 2 ^ j % 2

/-- One iteration of the square-and-multiply loop in `Context::pow`:
`r² ; a = r²·lhs ; b ; !b ; r₁ = a·b ; r₂ = r²·(!b) ; r = r₁ + r₂`, all in
the field. -/
def powStep (p base acc b : Nat) : Nat :=
  let rSquared := fieldMul p acc acc
  let a := fieldMul p rSquared base
  let notB := 1 - b
  let r1 := fieldMul p a b
  let r2 := fieldMul p rSquared notB
  fieldAdd p r1 r2

/-- The loop of `Context::pow`: iteration `i ∈ 1..bit_size+1` reads bit
`bit_size - i`, so the fuel argument counts down through bit indices
`bit_size-1, …, 0`. -/
def powGo (p base r : Nat) : Nat → Nat → Nat
  | 0, acc => acc
  | j + 1, acc => powGo p base r j (powStep p base acc (bitOf r j))

/-- Embeds `Context::pow`: square-and-multiply over the `bitSize` little-endian bits
of `r`, starting from the field constant one. -/
def powDyn (p base r bitSize : Nat) : Nat :=
  powGo p base r bitSize (1 % p)

/-- Embeds `Context::insert_wrapping_shift_left`, fused with evaluation.
`p` is the field modulus, `maxNumBits` is `FieldElement::max_num_bits()`,
`u` the bit size of `lhs`'s unsigned type, `lhs` the operand value,
`maxLhsBits` the value of `get_value_max_num_bits(lhs)` (so `lhs < 2 ^
maxLhsBits`), `rhsConst` whether `rhs` is a known constant, and `r` the
shift amount.  In the constant arm, `2^r` is materialized as a field
constant (`2_u128.overflowing_pow` short-circuits to zero for `r ≥ 128`);
in the dynamic arm, a `rhs < bit_size` predicate nullifies the power, which
is computed by `pow` over the `u` bits of the casted `rhs`. -/
def insert_wrapping_shift_left (p maxNumBits u : Nat) (lhs maxLhsBits : Nat)
    (rhsConst : Bool) (r : Nat) : Nat :=
  if rhsConst ∧ 128 ≤ r then
    0
  else
    let base := 2 % p
    let maxBitPow : Nat × Nat :=
      if rhsConst then
        (maxLhsBits + r, 2 ^ r % p)
      else
        let overflow := if r < u then 1 else 0
        let predicate := overflow
        let rhsUnsigned := r
        let pw := powDyn p base rhsUnsigned u
        (maxNumBits, uintMul u predicate pw)
    if maxBitPow.1 ≤ u then
      uintMul u lhs maxBitPow.2
    else
      let lhsField := lhs
      let powField := maxBitPow.2
      let result := fieldMul p lhsField powField
      truncVal u result

/-- Embeds `Context::insert_shift_right`, fused with evaluation.  `u` is the bit
size of `lhs`'s type, `rb` the bit size of `rhs`'s unsigned type (8 in Noir),
`lhsSigned` whether `lhs`'s type is signed.  Unsigned shift is a plain
division by `2^rhs`; signed shift divides the one's-complement
(`lhs + (lhs < 0)`, truncated) and converts back by subtracting the sign. -/
def insert_shift_right (p u rb : Nat) (lhsSigned : Bool) (lhs r : Nat) : Nat :=
  let base := 2 % p
  let pw := powDyn p base r rb
  if ¬lhsSigned then
    uintDiv u lhs pw
  else
    let lhsSign := if toIntS u (lhs % 2 ^ u) < 0 then 1 else 0
    let oneComplement := fieldAdd p lhsSign lhs
    let oneComplement := truncVal u oneComplement
    let shiftedComplement := sintDiv u oneComplement pw
    let shifted := sintSub u shiftedComplement lhsSign
    truncVal u shifted

/-- The modulus of the BN254 scalar field, the 254-bit prime over which
`FieldElement` computes in the compiled program. -/
def bn254Modulus : Nat :=
  21888242871839275222246405745257275088548364400416034343698204186575808495617

theorem powStep_spec (p base e b : Nat) (hb : b ≤ 1) :
    powStep p base ((base ^ e) % p) b = base ^ (2 * e + b) % p := by
  unfold powStep fieldMul fieldAdd
  match b, hb with
  | 0, _ =>
    simp only [Nat.mul_zero, Nat.zero_mod, Nat.zero_add, Nat.sub_zero, Nat.mul_one,
      Nat.add_zero]
    rw [← Nat.mul_mod, ← pow_add, ← two_mul, Nat.mod_mod_of_dvd _ dvd_rfl,
      Nat.mod_mod_of_dvd _ dvd_rfl]
  | 1, _ =>
    simp only [Nat.mul_one, Nat.sub_self, Nat.mul_zero, Nat.zero_mod, Nat.add_zero]
    rw [Nat.mod_mod_of_dvd _ dvd_rfl]
    have hm : (base ^ e % p) * (base ^ e % p) % p * base % p =
        base ^ e * base ^ e * base % p :=
      (((Nat.mod_modEq (base ^ e % p * (base ^ e % p)) p).trans
        ((Nat.mod_modEq (base ^ e) p).mul (Nat.mod_modEq (base ^ e) p))).mul
        (Nat.ModEq.refl base))
    rw [hm, ← pow_add, ← pow_succ]
    have he : e + e + 1 = 2 * e + 1 := by omega
    rw [he, Nat.mod_mod_of_dvd _ dvd_rfl]

theorem powGo_spec (p base r : Nat) :
    ∀ j e, powGo p base r j ((base ^ e) % p) = base ^ (e * 2 ^ j + r % 2 ^ j) % p := by
  intro j
  induction j with
  | zero => intro e; simp [powGo, Nat.mod_one]
  | succ j ih =>
    intro e
    show powGo p base r j (powStep p base ((base ^ e) % p) (bitOf r j)) = _
    rw [powStep_spec p base e (bitOf r j) (Nat.le_of_lt_succ (Nat.mod_lt _ (by norm_num)))]
    rw [ih (2 * e + bitOf r j)]
    congr 1
    have hsplit : r % 2 ^ (j + 1) = r % 2 ^ j + 2 ^ j * (r / 2 ^ j % 2) := by
      rw [pow_succ, Nat.mod_mul]
    rw [hsplit]
    unfold bitOf
    ring

/-- Embeds `pow(2, rhs)` evaluates to `2^rhs` in the field: the square-and-multiply
schedule over the `bitSize` bits of `r` computes the exact power whenever
`r < 2^bitSize`. -/
theorem powDyn_two_spec (p r bitSize : Nat) (hr : r < 2 ^ bitSize) :
    powDyn p (2 % p) r bitSize = 2 ^ r % p := by
  unfold powDyn
  have h1 : (1 : Nat) % p = ((2 % p) ^ 0) % p := by rw [pow_zero]
  rw [h1, powGo_spec]
  rw [Nat.zero_mul, Nat.zero_add, Nat.mod_eq_of_lt hr, ← Nat.pow_mod]

theorem tdiv_shift_identity (mn : Nat) (hm : 0 < mn) (x : Int) :
    (x + (if x < 0 then 1 else 0)).tdiv (mn : Int) - (if x < 0 then 1 else 0) =
      x.fdiv (mn : Int) := by
  obtain ⟨n, rfl⟩ : ∃ n, mn = n + 1 := ⟨mn - 1, by omega⟩
  by_cases hx : x < 0
  · rw [if_pos hx]
    obtain ⟨a, rfl⟩ : ∃ a : Nat, x = -((a : Int) + 1) := ⟨(-x).toNat - 1, by omega⟩
    have hx1 : -((a : Int) + 1) + 1 = -(a : Int) := by ring
    rw [hx1, Int.neg_tdiv, ← Int.ofNat_tdiv]
    rw [Int.fdiv_eq_ediv _ (by positivity), ← Int.negSucc_eq]
    have hed : (Int.negSucc a) / ((n + 1 : Nat) : Int) = Int.negSucc (a / (n + 1)) := rfl
    rw [hed, Int.negSucc_eq]
    push_cast
    ring
  · rw [if_neg hx]
    have h0 : 0 ≤ x := Int.not_lt.mp hx
    rw [add_zero, sub_zero, Int.tdiv_eq_ediv h0 (by positivity),
      Int.fdiv_eq_ediv _ (by positivity)]

/-- The round trip residue-then-interpret is congruent to the original
integer modulo `2^u`. -/
theorem toIntS_residueS_emod (u : Nat) (q : Int) :
    (toIntS u (residueS u q)) % ((2 : Int) ^ u) = q % 2 ^ u := by
  have hP : (0 : Int) < 2 ^ u := by positivity
  unfold toIntS residueS
  have hnn : 0 ≤ q % ((2 : Int) ^ u) := Int.emod_nonneg q (by positivity)
  split
  · rw [Int.toNat_of_nonneg hnn]
    exact Int.emod_emod_of_dvd q dvd_rfl
  · rw [Int.toNat_of_nonneg hnn]
    rw [Int.sub_emod, Int.emod_self, sub_zero, Int.emod_emod_of_dvd q dvd_rfl,
      Int.emod_emod_of_dvd q dvd_rfl]

/-- Two integers congruent modulo `2^u` have the same `u`-bit residue. -/
theorem residueS_congr (u : Nat) (a b : Int)
    (h : a % ((2 : Int) ^ u) = b % 2 ^ u) : residueS u a = residueS u b := by
  unfold residueS
  rw [h]

/-- The sign test of the lowered signed shift: a `u`-bit residue interprets
negative exactly when its high bit is set. -/
theorem toIntS_neg_iff (u L : Nat) (hu : 1 ≤ u) (hL : L < 2 ^ u) :
    toIntS u L < 0 ↔ 2 ^ (u - 1) ≤ L := by
  have hsplit : (2 : Nat) ^ u = 2 ^ (u - 1) * 2 := by
    obtain ⟨t, rfl⟩ : ∃ t, u = t + 1 := ⟨u - 1, by omega⟩
    rw [pow_succ]; simp
  have hcastu : ((2 ^ u : Nat) : Int) = (2 : Int) ^ u := by push_cast; ring
  unfold toIntS
  split <;> omega

/-- The two's-complement interpretation is congruent to the residue. -/
theorem toIntS_emod (u L : Nat) :
    (toIntS u L) % ((2 : Int) ^ u) = (L : Int) % 2 ^ u := by
  unfold toIntS
  split
  · rfl
  · rw [Int.sub_emod, Int.emod_self, sub_zero, Int.emod_emod_of_dvd _ dvd_rfl]

/-- The two's-complement interpretation of a `u`-bit residue lies in
`[-2^(u-1), 2^(u-1))`. -/
theorem toIntS_bounds (u L : Nat) (hu : 1 ≤ u) (hL : L < 2 ^ u) :
    -(2 ^ (u - 1) : Int) ≤ toIntS u L ∧ toIntS u L < 2 ^ (u - 1) := by
  have hsplit : (2 : Nat) ^ u = 2 ^ (u - 1) * 2 := by
    obtain ⟨t, rfl⟩ : ∃ t, u = t + 1 := ⟨u - 1, by omega⟩
    rw [pow_succ]; simp
  have hposn : 0 < (2 : Nat) ^ (u - 1) := by positivity
  have hcastu : ((2 ^ u : Nat) : Int) = (2 : Int) ^ u := by push_cast; ring
  have hcasth : ((2 ^ (u - 1) : Nat) : Int) = (2 : Int) ^ (u - 1) := by push_cast; ring
  unfold toIntS
  split <;> omega

/-- A `u`-bit residue interprets to the unique congruent integer in
`[-2^(u-1), 2^(u-1))`. -/
theorem toIntS_eq_of_emod (u : Nat) (hu : 1 ≤ u) (L : Nat) (hL : L < 2 ^ u) (q : Int)
    (hcong : (L : Int) % ((2 : Int) ^ u) = q % 2 ^ u)
    (h1 : -(2 ^ (u - 1) : Int) ≤ q) (h2 : q < 2 ^ (u - 1)) :
    toIntS u L = q := by
  have hsplit : (2 : Nat) ^ u = 2 ^ (u - 1) * 2 := by
    obtain ⟨t, rfl⟩ : ∃ t, u = t + 1 := ⟨u - 1, by omega⟩
    rw [pow_succ]; simp
  have hsplitI : (2 : Int) ^ u = 2 ^ (u - 1) * 2 := by
    obtain ⟨t, rfl⟩ : ∃ t, u = t + 1 := ⟨u - 1, by omega⟩
    rw [pow_succ]; simp
  have hposn : 0 < (2 : Nat) ^ (u - 1) := by positivity
  have hposI : (0 : Int) < 2 ^ (u - 1) := by positivity
  have hcastu : ((2 ^ u : Nat) : Int) = (2 : Int) ^ u := by push_cast; ring
  have hcasth : ((2 ^ (u - 1) : Nat) : Int) = (2 : Int) ^ (u - 1) := by push_cast; ring
  have hLmod : (L : Int) % ((2 : Int) ^ u) = (L : Int) :=
    Int.emod_eq_of_lt (by positivity) (by omega)
  have hqm : q % ((2 : Int) ^ u) = if 0 ≤ q then q else q + 2 ^ u := by
    by_cases hq : 0 ≤ q
    · rw [if_pos hq]
      exact Int.emod_eq_of_lt hq (by omega)
    · rw [if_neg hq]
      have hshift : (q + 2 ^ u * 1) % ((2 : Int) ^ u) = q % 2 ^ u :=
        Int.add_mul_emod_self_left q (2 ^ u) 1
      rw [mul_one] at hshift
      rw [← hshift]
      exact Int.emod_eq_of_lt (by omega) (by omega)
  rw [hLmod, hqm] at hcong
  unfold toIntS
  by_cases hq : 0 ≤ q
  · rw [if_pos hq] at hcong
    split <;> omega
  · rw [if_neg hq] at hcong
    split <;> omega

/-- The truncated one's-complement `(s + lhs) mod 2^u` of the lowered signed
shift interprets to `toIntS lhs + s`, where `s` is the sign bit. -/
theorem oneComplement_toIntS (u lhs s : Nat) (hu : 1 ≤ u) (hlhs : lhs < 2 ^ u)
    (hs : s = if toIntS u lhs < 0 then 1 else 0) :
    toIntS u ((s + lhs) % 2 ^ u) = toIntS u lhs + s := by
  have hP : 0 < (2 : Nat) ^ u := by positivity
  obtain ⟨hb1, hb2⟩ := toIntS_bounds u lhs hu hlhs
  apply toIntS_eq_of_emod u hu _ (Nat.mod_lt _ hP)
  · push_cast
    rw [Int.emod_emod_of_dvd _ dvd_rfl]
    rw [Int.add_emod (toIntS u lhs) ((s : Int)), toIntS_emod, ← Int.add_emod,
      add_comm ((lhs : Int)) ((s : Int))]
  · by_cases hneg : toIntS u lhs < 0
    · rw [hs, if_pos hneg]
      push_cast
      omega
    · rw [hs, if_neg hneg]
      push_cast
      omega
  · by_cases hneg : toIntS u lhs < 0
    · rw [hs, if_pos hneg]
      push_cast
      omega
    · rw [hs, if_neg hneg]
      push_cast
      omega

/-- Shift-left correctness on both the constant-`rhs` and dynamic-`rhs`
paths: the emitted SSA evaluates to `(lhs * 2^r) mod 2^u`.  The hypotheses:
the shift amount is in range (`r < u`), the operand respects its
`get_value_max_num_bits` bound, the type is no wider than 128 bits, the
field is wide enough for the untruncated product (which the compiled
254-bit field is not for wide `u128` shifts - there the conclusion fails),
and `u` is below the field's bit count. -/
theorem insert_wrapping_shift_left_spec (p maxNumBits u lhs maxLhsBits r : Nat)
    (cst : Bool) (hru : r < u) (hu128 : u ≤ 128) (hlhs : lhs < 2 ^ maxLhsBits)
    (hp : 2 ^ (maxLhsBits + r) < p) (hup : 2 ^ (u + 1) < p) (humax : u < maxNumBits) :
    insert_wrapping_shift_left p maxNumBits u lhs maxLhsBits cst r =
      lhs * 2 ^ r % 2 ^ u := by
  have hr128 : ¬ (128 ≤ r) := by omega
  have h2r : (2 : Nat) ^ r < p :=
    lt_of_le_of_lt (Nat.pow_le_pow_right (by norm_num) (by omega)) hp
  have hprod : lhs * 2 ^ r < p := by
    calc lhs * 2 ^ r < 2 ^ maxLhsBits * 2 ^ r :=
          mul_lt_mul_of_pos_right hlhs (by positivity)
      _ = 2 ^ (maxLhsBits + r) := (pow_add 2 maxLhsBits r).symm
      _ < p := hp
  unfold insert_wrapping_shift_left
  rw [if_neg (fun hc => hr128 hc.2)]
  cases cst with
  | true =>
    show (if maxLhsBits + r ≤ u then uintMul u lhs (2 ^ r % p)
      else truncVal u (fieldMul p lhs (2 ^ r % p))) = lhs * 2 ^ r % 2 ^ u
    rw [Nat.mod_eq_of_lt h2r]
    by_cases hmb : maxLhsBits + r ≤ u
    · rw [if_pos hmb]
      rfl
    · rw [if_neg hmb]
      unfold truncVal fieldMul
      rw [Nat.mod_eq_of_lt hprod]
  | false =>
    show (if maxNumBits ≤ u then
        uintMul u lhs (uintMul u (if r < u then 1 else 0) (powDyn p (2 % p) r u))
      else truncVal u (fieldMul p lhs
        (uintMul u (if r < u then 1 else 0) (powDyn p (2 % p) r u)))) =
      lhs * 2 ^ r % 2 ^ u
    have hpow : powDyn p (2 % p) r u = 2 ^ r := by
      rw [powDyn_two_spec p r u (lt_trans hru (Nat.lt_two_pow u))]
      exact Nat.mod_eq_of_lt h2r
    have hpred : (if r < u then 1 else 0) = 1 := if_pos hru
    rw [hpow, hpred]
    have hpw2 : uintMul u 1 (2 ^ r) = 2 ^ r := by
      unfold uintMul
      rw [one_mul]
      exact Nat.mod_eq_of_lt (Nat.pow_lt_pow_right (by norm_num) hru)
    rw [hpw2, if_neg (by omega : ¬ maxNumBits ≤ u)]
    unfold truncVal fieldMul
    rw [Nat.mod_eq_of_lt hprod]

/-- Unsigned shift-right correctness: the emitted division by `pow(2, rhs)`
evaluates to `lhs >>> r`. -/
theorem insert_shift_right_unsigned_spec (p u rb lhs r : Nat)
    (hlhs : lhs < 2 ^ u) (hru : r < u) (hrrb : r < 2 ^ rb)
    (hup : 2 ^ (u + 1) < p) :
    insert_shift_right p u rb false lhs r = lhs >>> r := by
  have h2r : (2 : Nat) ^ r < p := by
    calc (2 : Nat) ^ r ≤ 2 ^ (u + 1) := Nat.pow_le_pow_right (by norm_num) (by omega)
      _ < p := hup
  unfold insert_shift_right
  show uintDiv u lhs (powDyn p (2 % p) r rb) = lhs >>> r
  rw [powDyn_two_spec p r rb hrrb, Nat.mod_eq_of_lt h2r]
  unfold uintDiv
  rw [Nat.mod_eq_of_lt hlhs,
    Nat.mod_eq_of_lt (Nat.pow_lt_pow_right (by norm_num) hru),
    Nat.shiftRight_eq_div_pow]

theorem residueS_lt (u : Nat) (z : Int) : residueS u z < 2 ^ u := by
  unfold residueS
  have h1 : 0 ≤ z % ((2 : Int) ^ u) := Int.emod_nonneg z (by positivity)
  have h2 : z % ((2 : Int) ^ u) < 2 ^ u := Int.emod_lt_of_pos z (by positivity)
  have hcastu : ((2 ^ u : Nat) : Int) = (2 : Int) ^ u := by push_cast; ring
  omega

theorem tdiv_eq_zero_of_abs_lt (z b : Int) (hb : 0 < b) (h1 : -b < z) (h2 : z < b) :
    z.tdiv b = 0 := by
  by_cases hz : 0 ≤ z
  · rw [Int.tdiv_eq_ediv hz (le_of_lt hb)]
    exact Int.ediv_eq_zero_of_lt hz h2
  · rw [show z = -(-z) from (neg_neg z).symm, Int.neg_tdiv,
      Int.tdiv_eq_ediv (by omega) (le_of_lt hb),
      Int.ediv_eq_zero_of_lt (by omega) (by omega)]
    rfl

theorem residueS_toIntS_sub_congr (u : Nat) (q t : Int) :
    residueS u (toIntS u (residueS u q) - t) = residueS u (q - t) :=
  residueS_congr u _ _ (by rw [Int.sub_emod, toIntS_residueS_emod, ← Int.sub_emod])

/-- Signed shift-right correctness: the emitted one's-complement construction
evaluates to the `u`-bit residue of the arithmetic (floor) shift
`⌊toIntS(lhs) / 2^r⌋`. -/
theorem insert_shift_right_signed_spec (p u rb lhs r : Nat)
    (hu : 2 ≤ u) (hlhs : lhs < 2 ^ u) (hru : r < u) (hrrb : r < 2 ^ rb)
    (hup : 2 ^ (u + 1) < p) :
    insert_shift_right p u rb true lhs r =
      residueS u (Int.fdiv (toIntS u lhs) ((2 ^ r : Nat) : Int)) := by
  have h2u : (2 : Nat) ^ u < 2 ^ (u + 1) := Nat.pow_lt_pow_right (by norm_num) (by omega)
  have h2r : (2 : Nat) ^ r < p := by
    calc (2 : Nat) ^ r ≤ 2 ^ (u + 1) := Nat.pow_le_pow_right (by norm_num) (by omega)
      _ < p := hup
  have hpow : powDyn p (2 % p) r rb = 2 ^ r := by
    rw [powDyn_two_spec p r rb hrrb]
    exact Nat.mod_eq_of_lt h2r
  have hlm : lhs % 2 ^ u = lhs := Nat.mod_eq_of_lt hlhs
  have hrlt2u : (2 : Nat) ^ r < 2 ^ u := Nat.pow_lt_pow_right (by norm_num) hru
  obtain ⟨hb1, hb2⟩ := toIntS_bounds u lhs (by omega) hlhs
  have hcasth : ((2 ^ (u - 1) : Nat) : Int) = (2 : Int) ^ (u - 1) := by push_cast; ring
  have hsplitI : (2 : Int) ^ u = 2 ^ (u - 1) * 2 := by
    obtain ⟨t, rfl⟩ : ∃ t, u = t + 1 := ⟨u - 1, by omega⟩
    rw [pow_succ]; simp
  have hposI : (0 : Int) < 2 ^ (u - 1) := by positivity
  have h2ubig : (2 : Nat) ^ 1 ≤ 2 ^ u := Nat.pow_le_pow_right (by norm_num) (by omega)
  unfold insert_shift_right
  show truncVal u (sintSub u (sintDiv u (truncVal u (fieldAdd p
      (if toIntS u (lhs % 2 ^ u) < 0 then 1 else 0) lhs)) (powDyn p (2 % p) r rb))
      (if toIntS u (lhs % 2 ^ u) < 0 then 1 else 0)) =
    residueS u (Int.fdiv (toIntS u lhs) ((2 ^ r : Nat) : Int))
  rw [hpow, hlm]
  set s := if toIntS u lhs < 0 then 1 else 0 with hsdef
  have hs1 : s ≤ 1 := by rw [hsdef]; split <;> omega
  have hsInt : (s : Int) = if toIntS u lhs < 0 then 1 else 0 := by
    rw [hsdef]; split <;> simp
  have hadd : fieldAdd p s lhs = s + lhs := by
    unfold fieldAdd
    exact Nat.mod_eq_of_lt (by omega)
  rw [hadd]
  have hdiv : sintDiv u (truncVal u (s + lhs)) (2 ^ r) =
      residueS u (Int.tdiv (toIntS u lhs + (s : Int)) (toIntS u (2 ^ r))) := by
    unfold sintDiv
    rw [show truncVal u (s + lhs) % 2 ^ u = (s + lhs) % 2 ^ u from
      Nat.mod_mod_of_dvd _ dvd_rfl]
    rw [oneComplement_toIntS u lhs s (by omega) hlhs hsdef]
    rw [Nat.mod_eq_of_lt hrlt2u]
  rw [hdiv]
  have hsubstep : ∀ q : Int,
      truncVal u (sintSub u (residueS u q) s) = residueS u (q - (s : Int)) := by
    intro q
    unfold sintSub
    rw [Nat.mod_eq_of_lt (residueS_lt u q)]
    have hsmall : s < 2 ^ (u - 1) := by
      have : (2 : Nat) ^ 1 ≤ 2 ^ (u - 1) := Nat.pow_le_pow_right (by norm_num) (by omega)
      omega
    have hsmod : toIntS u (s % 2 ^ u) = (s : Int) := by
      rw [Nat.mod_eq_of_lt (by omega)]
      unfold toIntS
      rw [if_pos hsmall]
    rw [hsmod, residueS_toIntS_sub_congr]
    unfold truncVal
    exact Nat.mod_eq_of_lt (residueS_lt u _)
  by_cases hsmallr : (2 : Nat) ^ r < 2 ^ (u - 1)
  · -- r < u - 1: the divisor interprets as the positive 2^r
    have hd : toIntS u (2 ^ r) = ((2 ^ r : Nat) : Int) := by
      unfold toIntS
      rw [if_pos hsmallr]
    rw [hd, hsubstep]
    have hid := tdiv_shift_identity (2 ^ r) (by positivity) (toIntS u lhs)
    rw [← hsInt] at hid
    rw [hid]
  · -- r = u - 1: the divisor interprets as -2^(u-1)
    have hreq : r = u - 1 := by
      have h1 : u - 1 ≤ r := by
        have := (Nat.pow_le_pow_iff_right (by norm_num : 1 < 2)).mp
          (Nat.le_of_not_lt hsmallr)
        exact this
      omega
    subst hreq
    have hd : toIntS u (2 ^ (u - 1)) = -((2 : Int) ^ (u - 1)) := by
      unfold toIntS
      rw [if_neg (by omega)]
      rw [hcasth, hsplitI]
      ring
    rw [hd, hsubstep]
    have hq0 : Int.tdiv (toIntS u lhs + (s : Int)) (-((2 : Int) ^ (u - 1))) = 0 := by
      rw [Int.tdiv_neg]
      rw [tdiv_eq_zero_of_abs_lt _ _ hposI (by rw [hsInt]; split <;> omega)
        (by rw [hsInt]; split <;> omega)]
      rfl
    rw [hq0]
    have hfd : Int.fdiv (toIntS u lhs) ((2 ^ (u - 1) : Nat) : Int) = 0 - (s : Int) := by
      by_cases hxneg : toIntS u lhs < 0
      · rw [hsInt, if_pos hxneg]
        obtain ⟨n, h2n⟩ : ∃ n, (2 : Nat) ^ (u - 1) = n + 1 :=
          ⟨2 ^ (u - 1) - 1, by
            have hpos : 0 < (2 : Nat) ^ (u - 1) := by positivity
            omega⟩
        obtain ⟨a, hxa⟩ : ∃ a : Nat, toIntS u lhs = -((a : Int) + 1) :=
          ⟨(-(toIntS u lhs)).toNat - 1, by omega⟩
        have ha : a < n + 1 := by
          have hcn : ((n : Int) + 1) = (2 : Int) ^ (u - 1) := by
            rw [← hcasth, h2n]; push_cast; ring
          omega
        rw [hxa, Int.fdiv_eq_ediv _ (by positivity), ← Int.negSucc_eq, h2n]
        have hed : (Int.negSucc a) / ((n + 1 : Nat) : Int) = Int.negSucc (a / (n + 1)) := rfl
        rw [hed, Nat.div_eq_of_lt ha]
        decide
      · rw [hsInt, if_neg hxneg]
        rw [Int.fdiv_eq_ediv _ (by positivity),
          Int.ediv_eq_zero_of_lt (by omega) (by omega)]
        ring
    rw [hfd]

/-- C1 (counterexample): the unconditional claim is false at the compiled
BN254 modulus.  Take a non-constant `u128` operand (`get_value_max_num_bits`
returns 128) whose runtime value is `2^127`, shifted left by the constant
`r = 127 < 128`.  The constant arm computes `max_bit = 128 + 127 = 255 >
128`, so the truncate path multiplies the operands as field elements; the
product `2^254` exceeds the 254-bit modulus, wraps to `2^254 - p` (an odd
number), and truncation modulo `2^128` yields a nonzero value, whereas the
claim requires `(2^127 * 2^127) mod 2^128 = 0`. -/
theorem remove_bit_shifts_shl_counterexample :
    insert_wrapping_shift_left bn254Modulus 254 128 (2 ^ 127) 128 true 127 ≠
      2 ^ 127 * 2 ^ 127 % 2 ^ 128 := by
  decide

/-- C1 (amended): the SSA emitted by `remove_bit_shifts` evaluates correctly
whenever no intermediate field product wraps: (1) for every unsigned `u`-bit
`lhs` and shift amount `r < u` with `2^(max_lhs_bits + r)` below the field
modulus, the lowered `Shl(lhs, r)` - on both the constant-`rhs` and
dynamic-`rhs` paths - evaluates to `(lhs * 2^r) mod 2^u`; (2) the lowered
unsigned `Shr(lhs, r)` evaluates to `lhs >> r`; (3) for signed `lhs`, the
lowered `Shr` evaluates to the arithmetic right shift (the `u`-bit residue
of the floor division of the two's-complement value by `2^r`).  At the
compiled 254-bit field the `Shl` side condition holds for all widths up to
`u64` and for every shift whose `max_lhs_bits + r` stays below 254, but
fails for wide `u128` shifts - where the lowering returns the field-wrapped
value instead, as the counterexample shows. -/
theorem remove_bit_shifts_correct :
    (∀ (p maxNumBits u lhs maxLhsBits r : Nat) (cst : Bool), r < u → u ≤ 128 →
      lhs < 2 ^ maxLhsBits → 2 ^ (maxLhsBits + r) < p → 2 ^ (u + 1) < p →
      u < maxNumBits →
      insert_wrapping_shift_left p maxNumBits u lhs maxLhsBits cst r =
        lhs * 2 ^ r % 2 ^ u) ∧
    (∀ p u rb lhs r : Nat, lhs < 2 ^ u → r < u → r < 2 ^ rb → 2 ^ (u + 1) < p →
      insert_shift_right p u rb false lhs r = lhs >>> r) ∧
    (∀ p u rb lhs r : Nat, 2 ≤ u → lhs < 2 ^ u → r < u → r < 2 ^ rb →
      2 ^ (u + 1) < p →
      insert_shift_right p u rb true lhs r =
        residueS u (Int.fdiv (toIntS u lhs) ((2 ^ r : Nat) : Int))) :=
  ⟨fun p mnb u lhs mlb r cst h1 h2 h3 h4 h5 h6 =>
      insert_wrapping_shift_left_spec p mnb u lhs mlb r cst h1 h2 h3 h4 h5 h6,
    fun p u rb lhs r h1 h2 h3 h4 =>
      insert_shift_right_unsigned_spec p u rb lhs r h1 h2 h3 h4,
    fun p u rb lhs r h0 h1 h2 h3 h4 =>
      insert_shift_right_signed_spec p u rb lhs r h0 h1 h2 h3 h4⟩

theorem remove_bit_shifts_correct_witness :
    insert_wrapping_shift_left 2100007 254 8 200 8 true 3 = 200 * 2 ^ 3 % 2 ^ 8 ∧
    insert_wrapping_shift_left 2100007 254 8 200 8 false 3 = 200 * 2 ^ 3 % 2 ^ 8 ∧
    insert_shift_right 2100007 8 8 false 200 3 = 200 >>> 3 ∧
    insert_shift_right 2100007 8 8 true 251 1 =
      residueS 8 (Int.fdiv (toIntS 8 251) ((2 ^ 1 : Nat) : Int)) :=
  ⟨remove_bit_shifts_correct.1 2100007 254 8 200 8 3 true (by decide) (by decide)
      (by decide) (by decide) (by decide) (by decide),
    remove_bit_shifts_correct.1 2100007 254 8 200 8 3 false (by decide) (by decide)
      (by decide) (by decide) (by decide) (by decide),
    remove_bit_shifts_correct.2.1 2100007 8 8 200 3 (by decide) (by decide)
      (by decide) (by decide),
    remove_bit_shifts_correct.2.2 2100007 8 8 251 1 (by decide) (by decide)
      (by decide) (by decide) (by decide)⟩
end NoirSsa
